import Mathlib

/-!
Verification development for the web crawler repository (crawler.py and
search_engines.py).  Strings are embedded as `List Char`; Python floats
carrying rule weights are embedded as rationals; fallible operations
(exceptions) are embedded with `Option`.  The Python standard library
primitives used by the code (the `re` module on the pattern fragment this
program builds, `str.strip`, `str.lower`, `unicodedata`) are embedded
explicitly below.
-/

namespace Crawler

/-! ## ASCII character primitives

Embeds the character-level behaviour of Python `str.lower`, `str.strip`,
and the `\w` word class of the `re` module, restricted to ASCII (the
repository compares ASCII text after accent stripping). -/

/-- Embeds Python lowercasing for ASCII letters (identity elsewhere). -/
def pyToLower (c : Char) : Char :=
  if 65 ≤ c.toNat ∧ c.toNat ≤ 90 then Char.ofNat (c.toNat + 32) else c

/-- Embeds the `re` word class `\w` restricted to ASCII: letters, digits
and the underscore. -/
def isWordChar (c : Char) : Bool :=
  (97 ≤ c.toNat && c.toNat ≤ 122) || (65 ≤ c.toNat && c.toNat ≤ 90) ||
    (48 ≤ c.toNat && c.toNat ≤ 57) || c.toNat == 95

/-- Embeds the whitespace class used by Python `str.strip()` (ASCII). -/
def pyIsSpace (c : Char) : Bool :=
  c == ' ' || c == '\t' || c == '\n' || c == '\r' || c.toNat == 11 || c.toNat == 12

/-- Character comparison used by the regex engine: exact, or up to ASCII
case when the `re.IGNORECASE` flag is set. -/
def charMatch (ci : Bool) (c d : Char) : Bool :=
  if ci then pyToLower c == pyToLower d else c == d

/-- Whether `w` matches the beginning of `v` character by character. -/
def litMatchAt (ci : Bool) : List Char → List Char → Bool
  | [], _ => true
  | _ :: _, [] => false
  | c :: w, d :: v => charMatch ci c d && litMatchAt ci w v

/-! ## Accent stripping (`UrlFinder.strip_accents`)

Embeds `unicodedata.normalize('NFD', s)` followed by removal of the
characters of category `Mn`.  The NFD decomposition of the external
`unicodedata` library is embedded by a finite table of common Latin
accented letters (identity elsewhere); the embedding is exact on ASCII
input, and `Mn` is embedded as the combining diacritical marks block. -/

def nfdTable : List (Char × List Char) :=
  [('á', ['a', Char.ofNat 769]), ('à', ['a', Char.ofNat 768]),
   ('â', ['a', Char.ofNat 770]), ('ä', ['a', Char.ofNat 776]),
   ('é', ['e', Char.ofNat 769]), ('è', ['e', Char.ofNat 768]),
   ('ê', ['e', Char.ofNat 770]), ('ë', ['e', Char.ofNat 776]),
   ('í', ['i', Char.ofNat 769]), ('ï', ['i', Char.ofNat 776]),
   ('ó', ['o', Char.ofNat 769]), ('ô', ['o', Char.ofNat 770]),
   ('ö', ['o', Char.ofNat 776]), ('ú', ['u', Char.ofNat 769]),
   ('ü', ['u', Char.ofNat 776]), ('ç', ['c', Char.ofNat 807]),
   ('ñ', ['n', Char.ofNat 771]), ('É', ['E', Char.ofNat 769])]

def nfdChar (c : Char) : List Char :=
  ((nfdTable.find? (fun p => p.1 = c)).map Prod.snd).getD [c]

/-- Combining diacritical marks (the `Mn` characters produced by the
decompositions in `nfdTable`). -/
def combiningMark (c : Char) : Bool :=
  768 ≤ c.toNat && c.toNat ≤ 879

/-- Embeds `UrlFinder.strip_accents`: NFD decomposition, then dropping
combining marks. -/
def strip_accents (s : List Char) : List Char :=
  (s.flatMap nfdChar).filter (fun c => !combiningMark c)

/-! ## Python `str.strip` -/

/-- Removes trailing characters satisfying `p`. -/
def dropTrail (p : Char → Bool) (s : List Char) : List Char :=
  ((s.reverse).dropWhile p).reverse

/-- Embeds Python `str.strip()` (no arguments): removes leading and
trailing whitespace. -/
def pyStrip (s : List Char) : List Char :=
  dropTrail pyIsSpace (s.dropWhile pyIsSpace)

/-! ## Query string filter (`SearchEngine.filter_query_string`)

The static method returns a closure over `chars`; the closure removes
every occurrence of each character of `chars` (a sequence of
`str.replace(c, '')` calls) and then strips the ends. -/

/-- The default character set `'\'",:;'` of `filter_query_string`. -/
def default_filter_chars : List Char := ['\'', '"', ',', ':', ';']

/-- Embeds the enclosed function produced by
`SearchEngine.filter_query_string(chars)`. -/
def filter_query_string (chars : List Char) (q : List Char) : List Char :=
  pyStrip (chars.foldl (fun acc c => acc.filter (fun d => d ≠ c)) q)

/-! ## Regex engine

The repository hands the `re` module three kinds of dynamically built
patterns: `s2` itself in `str_find_all`, `'\b{w}\b'` in `words_find`, and
the alternation `(^http.*://.*DOM\..{2,}/*.*$)|...` compiled in
`UrlFinder.__init__`.  The engine below embeds the fragment of `re`
those patterns use: literal characters, the dot, `\b`, `$`,
concatenation, alternation and the star (`.{2,}` is two dots and a
starred dot).  Matching is positional: `matchEnds ci fuel r i` is the
list of end positions of matches of `r` starting at position `i`. -/

inductive Regex where
  | eps
  | wordB
  | eol
  | char (c : Char)
  | anyCh
  | concat (r1 r2 : Regex)
  | alt (r1 r2 : Regex)
  | star (r : Regex)
deriving Repr

/-- Whether the character at index `i` (if any) is a word character. -/
def idxIsWord (s : List Char) (i : Nat) : Bool :=
  match s[i]? with
  | some c => isWordChar c
  | none => false

/-- Whether the character before position `i` (if any) is a word character. -/
def prevIsWord (s : List Char) (i : Nat) : Bool :=
  match i with
  | 0 => false
  | k + 1 => idxIsWord s k

/-- Embeds the `\b` condition of `re` at position `i` of `s`. -/
def boundaryAt (s : List Char) (i : Nat) : Bool :=
  prevIsWord s i != idxIsWord s i

/-- The fuel-0 evaluator: a star is not unrolled at all. -/
def matchEndsZero (ci : Bool) (s : List Char) : Regex → Nat → List Nat
  | .eps, i => [i]
  | .wordB, i => if boundaryAt s i then [i] else []
  | .eol, i =>
    if i = s.length ∨ (i + 1 = s.length ∧ s[i]? = some '\n') then [i] else []
  | .char c, i =>
    match s[i]? with
    | some d => if charMatch ci c d then [i + 1] else []
    | none => []
  | .anyCh, i =>
    match s[i]? with
    | some d => if d = '\n' then [] else [i + 1]
    | none => []
  | .concat r1 r2, i => (matchEndsZero ci s r1 i).flatMap (matchEndsZero ci s r2)
  | .alt r1 r2, i => matchEndsZero ci s r1 i ++ matchEndsZero ci s r2 i
  | .star _, i => [i]

/-- One extra level of star unrolling on top of the evaluator `prev`. -/
def matchEndsSucc (ci : Bool) (s : List Char) (prev : Regex → Nat → List Nat) :
    Regex → Nat → List Nat
  | .eps, i => [i]
  | .wordB, i => if boundaryAt s i then [i] else []
  | .eol, i =>
    if i = s.length ∨ (i + 1 = s.length ∧ s[i]? = some '\n') then [i] else []
  | .char c, i =>
    match s[i]? with
    | some d => if charMatch ci c d then [i + 1] else []
    | none => []
  | .anyCh, i =>
    match s[i]? with
    | some d => if d = '\n' then [] else [i + 1]
    | none => []
  | .concat r1 r2, i =>
    (matchEndsSucc ci s prev r1 i).flatMap (matchEndsSucc ci s prev r2)
  | .alt r1 r2, i => matchEndsSucc ci s prev r1 i ++ matchEndsSucc ci s prev r2 i
  | .star r, i =>
    i :: ((matchEndsSucc ci s prev r i).filter (fun j => i < j)).flatMap (prev (.star r))

/-- End positions of the matches of `r` in `s` starting at position `i`.
`fuel` bounds the number of star unrollings; every star unrolling
consumes at least one character, so `s.length + 1` is always enough. -/
def matchEnds (ci : Bool) (s : List Char) : Nat → Regex → Nat → List Nat
  | 0 => matchEndsZero ci s
  | fuel + 1 => matchEndsSucc ci s (matchEnds ci s fuel)

/-- Embeds `re.search`: a match may start at any position. -/
def reSearch (ci : Bool) (r : Regex) (s : List Char) : Bool :=
  (List.range (s.length + 1)).any (fun i => !(matchEnds ci s (s.length + 1) r i).isEmpty)

/-- Embeds `re.match`: the match is anchored at position 0. -/
def reMatch (ci : Bool) (r : Regex) (s : List Char) : Bool :=
  !(matchEnds ci s (s.length + 1) r 0).isEmpty

/-- The regex matching the word `w` literally. -/
def lit (w : List Char) : Regex :=
  w.foldr (fun c r => .concat (.char c) r) .eps

/-- Embeds `re` compilation of the pattern strings this program builds
from data (queries in `str_find_all` and words in `words_find`): the dot
becomes the any-character matcher and every other character is matched
literally.  Quantifier, class and group metacharacters are outside the
modelled fragment; the theorems below that quantify over patterns
restrict to metacharacter-free ones, where this embedding agrees with
`re`. -/
def compilePattern (p : List Char) : Regex :=
  p.foldr (fun c r => .concat (if c = '.' then .anyCh else .char c) r) .eps

/-- The regex metacharacters of the `re` module. -/
def isRegexMeta (c : Char) : Bool :=
  c ∈ ['.', '^', '$', '*', '+', '?', '{', '}', '[', ']', '(', ')', '|', '\\']

/-- Embeds the pattern `r'\b{}\b'.format(w)` built by `words_find`. -/
def wordRegex (w : List Char) : Regex :=
  .concat .wordB (.concat (compilePattern w) .wordB)

/-- The words whose `\b{w}\b` pattern lies in the modelled regex
fragment: every character either is matched literally or is the dot.
`re.compile` accepts every such pattern.  Outside this fragment no value
is asserted for `words_find`: the embedding returns `none` there, and
`re.compile` does raise `re.error` on the dangling-quantifier and
unbalanced-bracket words this program can produce from its input data
(for example `C++` or `(Un`, both reachable through `words_filter`). -/
def reCompilable (w : List Char) : Bool :=
  w.all (fun c => !isRegexMeta c || c == '.')

/-! ## Match functions of crawler.py -/

/-- Embeds `str_find_all(s, s2)`:
`bool(s2 and re.search(UrlFinder.strip_accents(s2), s, re.IGNORECASE))`. -/
def str_find_all (s s2 : List Char) : Bool :=
  !s2.isEmpty && reSearch true (compilePattern (strip_accents s2)) s

/-- Embeds `words_find(s, words)`: the per-word indicator sum divided by
`len(words)`.  The two error paths are embedded as `none`: the
`ZeroDivisionError` raised on an empty word list, and the region outside
the modelled pattern fragment, where `re.compile('\b{w}\b')` can raise
`re.error` (see `reCompilable`). -/
def words_find (s : List Char) (words : List (List Char)) : Option ℚ :=
  if words.all reCompilable then
    if words.length = 0 then none
    else some (((words.map
      (fun w => if reSearch true (wordRegex w) s then (1 : ℚ) else 0)).sum)
        / (words.length : ℚ))
  else none

/-- Embeds `words_find_all(s, words)`: `words_find(s, words) >= 1`. -/
def words_find_all (s : List Char) (words : List (List Char)) : Option Bool :=
  (words_find s words).map (fun q => 1 ≤ q)

/-- Embeds `re.split(r'[\.!?]', s)`: splits at every occurrence of one
of the three characters, keeping empty segments. -/
def splitSentences : List Char → List (List Char)
  | [] => [[]]
  | c :: cs =>
    if c = '.' ∨ c = '!' ∨ c = '?' then [] :: splitSentences cs
    else
      match splitSentences cs with
      | [] => [[c]]
      | t :: ts => (c :: t) :: ts

/-- Embeds `sentence_find(s, words)`: sums `words_find_all(l.strip(), words)`
over the segments; an exception from `words_find_all` propagates. -/
def sentence_find (s : List Char) (words : List (List Char)) : Option Nat :=
  (splitSentences s).foldl
    (fun acc l => acc.bind (fun a =>
      (words_find_all (pyStrip l) words).map (fun b => a + (if b then 1 else 0))))
    (some 0)

/-! ## Search results and their merging (`UrlFinder.get`, retrieval part)

Each backend's `get_results` produces a list of records
`{'link': ..., 'title': ..., 'descr': ...}`.  The merging loop keeps only
records `r` with `r not in results`. -/

structure Candidate where
  link : List Char
  title : List Char
  descr : List Char
deriving DecidableEq

/-- One step of the merging loop: `if r not in results: results.append(r)`. -/
def addUnique (results : List Candidate) (r : Candidate) : List Candidate :=
  if r ∈ results then results else results ++ [r]

/-- Embeds the retrieval loop of `UrlFinder.get`: the per-engine result
lists (as returned by the engines) are folded into one list. -/
def mergeResults (engineResults : List (List Candidate)) : List Candidate :=
  engineResults.foldl (fun results res => res.foldl addUnique results) []

/-! ## Exclusion data of `UrlFinder` -/

/-- Embeds `UrlFinder._exclude_ext`. -/
def exclude_ext : List (List Char) :=
  [".jpg".toList, ".png".toList, ".pdf".toList, ".jpeg".toList, ".gif".toList,
   ".avi".toList, ".mp4".toList, ".mkv".toList, ".mp3".toList, ".mpg".toList,
   ".mpeg".toList]

/-- Embeds `UrlFinder._exclude_dom`. -/
def exclude_dom : List (List Char) :=
  ["linkedin".toList, "glassdoor".toList, "facebook".toList, "societe".toList,
   "wikipedia".toList, "google".toList, "youtube".toList]

/-- Embeds the per-domain pattern `'^http.*://.*' + ex + '\..{2,}/*.*$'`
(the `^` anchor is realised by `reMatch`; `.{2,}` is two dots followed by
a starred dot). -/
def excludeDomRegex (tok : List Char) : Regex :=
  .concat (lit "http".toList)
    (.concat (.star .anyCh)
      (.concat (lit "://".toList)
        (.concat (.star .anyCh)
          (.concat (lit tok)
            (.concat (.char '.')
              (.concat .anyCh
                (.concat .anyCh
                  (.concat (.star .anyCh)
                    (.concat (.star (.char '/'))
                      (.concat (.star .anyCh) .eol))))))))))

/-- Left-associated alternation, embedding the `')|('.join(...)` of
`UrlFinder.__init__`. -/
def altJoin : Regex → List Regex → Regex
  | r, [] => r
  | r, x :: xs => altJoin (.alt r x) xs

/-- Embeds `self._exclude_re` as compiled in `UrlFinder.__init__`. -/
def excludeReCompiled : Regex :=
  match exclude_dom.map excludeDomRegex with
  | [] => .eol
  | r :: rs => altJoin r rs

/-- Embeds `self._exclude_re.match(url)` (truthiness of the match). -/
def excludeRe (u : List Char) : Bool :=
  reMatch false excludeReCompiled u

/-- Embeds `url[-n:]` (the whole string when it is shorter than `n`). -/
def lastChars (n : Nat) (s : List Char) : List Char :=
  s.drop (s.length - n)

/-- Embeds Python `str.lower()` on a string (ASCII). -/
def pyLower (s : List Char) : List Char :=
  s.map pyToLower

/-- Embeds the file-extension pre-check of `UrlFinder.get`:
`link[-4:].lower() in _exclude_ext or link[-5:].lower() in _exclude_ext`. -/
def extExcluded (u : List Char) : Bool :=
  decide (pyLower (lastChars 4 u) ∈ exclude_ext) ||
    decide (pyLower (lastChars 5 u) ∈ exclude_ext)

/-! ## urlsplit-based home-page test

Embeds `r['link'] == '{}://{}/'.format(*urlsplit(r['link'])[:2])` for
URLs of the shape `scheme://netloc[/rest]`: the scheme is the (lowercased)
segment before the first colon when it is a valid scheme name, and the
netloc is the authority after `//`, ending at the first `/`, `?` or `#`. -/

def isSchemeChar (c : Char) : Bool :=
  (97 ≤ c.toNat && c.toNat ≤ 122) || (65 ≤ c.toNat && c.toNat ≤ 90) ||
    (48 ≤ c.toNat && c.toNat ≤ 57) || c == '+' || c == '-' || c == '.'

def isAsciiLetter (c : Char) : Bool :=
  (97 ≤ c.toNat && c.toNat ≤ 122) || (65 ≤ c.toNat && c.toNat ≤ 90)

def schemeSplit (u : List Char) : List Char × List Char :=
  match u.findIdx? (fun c => c = ':') with
  | some k =>
    let sch := u.take k
    if sch.head?.any isAsciiLetter ∧ sch.all isSchemeChar then
      (pyLower sch, u.drop (k + 1))
    else ([], u)
  | none => ([], u)

def netlocOf (rest : List Char) : List Char :=
  if rest.take 2 = "//".toList then
    (rest.drop 2).takeWhile (fun c => c ≠ '/' ∧ c ≠ '?' ∧ c ≠ '#')
  else []

def schemeHostRoot (u : List Char) : List Char :=
  let p := schemeSplit u
  p.1 ++ "://".toList ++ netlocOf p.2 ++ "/".toList

/-- Embeds the `is_home` computation of `UrlFinder.get`. -/
def isHome (u : List Char) : Bool :=
  decide (u = schemeHostRoot u)

/-! ## The scoring engine (`UrlFinder`)

A validation rule is the tuple `(str_f, str_p, weight, content_p)`.  The
page type is abstract (`Pg`); fetching and parsing a candidate page is an
oracle `fetch : List Char → Option Pg`, `none` embedding a
`requests.exceptions.ConnectionError`.  A rule in the source is
dynamically typed (the filter may produce a token list consumed by a
word-based search function); the embedding types both through
`List Char`, folding any tokenisation into `str_p`.  Boolean search
results are embedded as rationals 0/1, as Python arithmetic does.  The
per-candidate content cache of the source is a pure memoisation of
`strip_accents(content_p(soup))` and is embedded by direct
recomputation. -/

structure Rule (Pg : Type) where
  str_f : Option (List Char → List Char)
  str_p : List Char → List Char → ℚ
  weight : ℚ
  content_p : Pg → List Char

structure UrlFinder (Pg : Type) where
  procs : List (List Char × List (Rule Pg))
  home_weight : ℚ
  skip_social : Bool
  home_only : Bool
  threshold : ℚ

/-- The contribution of one rule to a candidate weight:
`str_p(strip_accents(content_p(soup)), str_f(p_str)) * weight`. -/
def ruleScore {Pg : Type} (pg : Pg) (p_str : List Char) (rule : Rule Pg) : ℚ :=
  let p_str_filtered :=
    match rule.str_f with
    | some f => f p_str
    | none => p_str
  rule.str_p (strip_accents (rule.content_p pg)) p_str_filtered * rule.weight

/-- The accumulated rule score of one candidate page: fields absent from
`params` are skipped. -/
def procScore {Pg : Type} (procs : List (List Char × List (Rule Pg)))
    (params : List Char → Option (List Char)) (pg : Pg) : ℚ :=
  (procs.map (fun pp =>
    match params pp.1 with
    | some p_str => (pp.2.map (ruleScore pg p_str)).sum
    | none => 0)).sum

/-- Embeds the body of the scoring loop of `UrlFinder.get` for one
candidate: exclusion pre-check, home-weight initialisation, fetch (a
transport failure forces the weight to `-1`), rule evaluation. -/
def candidateWeight {Pg : Type} (f : UrlFinder Pg) (fetch : List Char → Option Pg)
    (params : List Char → Option (List Char)) (r : Candidate) : ℚ :=
  if extExcluded r.link || (f.skip_social && excludeRe r.link) ||
      (f.home_only && !isHome r.link) then -1
  else
    match fetch r.link with
    | none => -1
    | some pg => (if isHome r.link then (1 : ℚ) else 0) * f.home_weight + procScore f.procs params pg

/-! ## Selection (`UrlFinder.get`, lines 517-524)

`sorted(enumerate(weights), key=lambda x: x[1], reverse=True)` is a
stable descending sort of the index/weight pairs; Python documents that
`reverse=True` preserves the original order of equal keys.  The stable
sort is embedded as an insertion sort with the same input-output
behaviour. -/

def insortDesc (x : Nat × ℚ) : List (Nat × ℚ) → List (Nat × ℚ)
  | [] => [x]
  | y :: ys => if y.2 ≤ x.2 then x :: y :: ys else y :: insortDesc x ys

def sortDesc : List (Nat × ℚ) → List (Nat × ℚ)
  | [] => []
  | x :: xs => insortDesc x (sortDesc xs)

/-- The leftmost pair with maximal second component; characterises the
head of `sortDesc`. -/
def firstMax : List (Nat × ℚ) → Option (Nat × ℚ)
  | [] => none
  | x :: xs =>
    match firstMax xs with
    | none => some x
    | some m => if m.2 ≤ x.2 then some x else some m

/-- Embeds `UrlFinder.get`.  The engines are embedded by the result lists
they return for the query (`engineResults`), the network and the HTML
parser by the `fetch` oracle.  The final `match` embeds the indexing
`results[idx]['link']` and `weights[idx]`; an out-of-range index (a
Python `IndexError`, proved unreachable below) is embedded as `none`. -/
def urlfinder_get {Pg : Type} (f : UrlFinder Pg) (fetch : List Char → Option Pg)
    (params : List Char → Option (List Char))
    (engineResults : List (List Candidate)) : Option (List Char) :=
  let results := mergeResults engineResults
  let weights := results.map (candidateWeight f fetch params)
  match (sortDesc weights.enum).head? with
  | none => none
  | some p =>
    match results[p.1]?, weights[p.1]? with
    | some r, some w => if f.threshold ≤ w then some r.link else none
    | _, _ => none

/-! ## Specification-side predicates

These two definitions are written from the words of the specification
(not from the code); the claims compare the code functions against
them. -/

/-- Modelled from the spec: case-insensitive whole-word containment of
the (accent-stripped) query string as a literal phrase in `text`,
bounded by word boundaries on both sides.  Characters of the query are
taken literally. -/
def specContainsAll (text query : List Char) : Bool :=
  let qf := strip_accents query
  !qf.isEmpty && (List.range (text.length + 1)).any (fun i =>
    litMatchAt true qf (text.drop i) && boundaryAt text i &&
      boundaryAt text (i + qf.length))

/-- Modelled from the spec: the word `w` occurs in `u` up to ASCII case,
with no word character adjacent on either side. -/
def occursWholeWord (w u : List Char) : Bool :=
  (List.range (u.length + 1)).any (fun i =>
    litMatchAt true w (u.drop i) && !prevIsWord u i && !idxIsWord u (i + w.length))

/-! # Theorems -/

/-! ## Helper lemmas about the merging loop (claim C1) -/

theorem mem_addUnique {acc : List Candidate} {r x : Candidate} :
    x ∈ addUnique acc r ↔ x ∈ acc ∨ x = r := by
  unfold addUnique
  split
  · rename_i h
    constructor
    · exact Or.inl
    · rintro (hx | rfl)
      · exact hx
      · exact h
  · simp

theorem mem_foldl_addUnique (l : List Candidate) :
    ∀ (acc : List Candidate) (x : Candidate),
      x ∈ l.foldl addUnique acc ↔ x ∈ acc ∨ x ∈ l := by
  induction l with
  | nil => simp
  | cons a t ih =>
    intro acc x
    rw [List.foldl_cons, ih, mem_addUnique]
    simp only [List.mem_cons]
    tauto

theorem nodup_foldl_addUnique (l : List Candidate) :
    ∀ acc : List Candidate, acc.Nodup → (l.foldl addUnique acc).Nodup := by
  induction l with
  | nil => intro acc h; exact h
  | cons a t ih =>
    intro acc h
    rw [List.foldl_cons]
    apply ih
    unfold addUnique
    split
    · exact h
    · rename_i ha
      simp [List.nodup_append, h, ha]

theorem sublist_foldl_addUnique (l : List Candidate) :
    ∀ acc : List Candidate, ∃ l', l.foldl addUnique acc = acc ++ l' ∧ l'.Sublist l := by
  induction l with
  | nil => intro acc; exact ⟨[], by simp, List.Sublist.refl []⟩
  | cons a t ih =>
    intro acc
    rw [List.foldl_cons]
    by_cases ha : a ∈ acc
    · have hstep : addUnique acc a = acc := by unfold addUnique; rw [if_pos ha]
      rw [hstep]
      obtain ⟨l', h1, h2⟩ := ih acc
      exact ⟨l', h1, h2.cons a⟩
    · have hstep : addUnique acc a = acc ++ [a] := by unfold addUnique; rw [if_neg ha]
      rw [hstep]
      obtain ⟨l', h1, h2⟩ := ih (acc ++ [a])
      refine ⟨a :: l', ?_, h2.cons₂ a⟩
      rw [h1, List.append_assoc]
      rfl

theorem mergeResults_eq_foldl (ers : List (List Candidate)) :
    ∀ acc : List Candidate,
      ers.foldl (fun results res => res.foldl addUnique results) acc =
        ers.flatten.foldl addUnique acc := by
  induction ers with
  | nil => intro acc; rfl
  | cons e t ih =>
    intro acc
    rw [List.foldl_cons, ih, List.flatten_cons, List.foldl_append]

/-- C1 (amended): the merged candidate list is deduplicated by the whole
candidate record, keeping the order of the concatenated backend results:
every record of every backend result appears in it, no record appears
twice, and it is a subsequence of the concatenation. -/
theorem c1_theorem (ers : List (List Candidate)) :
    (mergeResults ers).Nodup ∧
      (∀ c : Candidate, c ∈ mergeResults ers ↔ c ∈ ers.flatten) ∧
      (mergeResults ers).Sublist ers.flatten := by
  unfold mergeResults
  rw [mergeResults_eq_foldl]
  refine ⟨nodup_foldl_addUnique _ [] (List.nodup_nil), ?_, ?_⟩
  · intro c
    rw [mem_foldl_addUnique]
    simp
  · obtain ⟨l', h1, h2⟩ := sublist_foldl_addUnique ers.flatten []
    rw [h1]
    simpa using h2

/-- C1 (counterexample): two backends return records with the same URL
but different titles and snippets; both records are kept, so the merged
list does not contain each distinct URL exactly once. -/
theorem c1_counterexample :
    ((mergeResults
        [[⟨"u".toList, "t1".toList, "d1".toList⟩],
         [⟨"u".toList, "t2".toList, "d2".toList⟩]]).countP
      (fun c => c.link == "u".toList)) = 2 := by decide

/-! ## Helper lemmas about indicator sums (claims C7 and C9) -/

theorem indicator_sum_bounds (l : List ℚ) (h : ∀ x ∈ l, x = 0 ∨ x = 1) :
    0 ≤ l.sum ∧ l.sum ≤ (l.length : ℚ) := by
  induction l with
  | nil => simp
  | cons a t ih =>
    obtain ⟨h1, h2⟩ := ih (fun x hx => h x (List.mem_cons_of_mem a hx))
    rcases h a (List.mem_cons_self a t) with rfl | rfl <;>
      · simp only [List.sum_cons, List.length_cons]
        push_cast
        constructor <;> linarith

theorem indicator_sum_all (l : List ℚ) (h : ∀ x ∈ l, x = 0 ∨ x = 1) :
    ((l.length : ℚ) ≤ l.sum ↔ ∀ x ∈ l, x = 1) := by
  induction l with
  | nil => simp
  | cons a t ih =>
    have ht := fun x hx => h x (List.mem_cons_of_mem a hx)
    obtain ⟨h1, h2⟩ := indicator_sum_bounds t ht
    rw [List.sum_cons, List.length_cons]
    constructor
    · intro hle
      have ha1 : a = 1 := by
        rcases h a (List.mem_cons_self a t) with rfl | rfl
        · push_cast at hle; linarith
        · rfl
      subst ha1
      intro x hx
      rcases List.mem_cons.1 hx with rfl | hx'
      · rfl
      · refine (ih ht).1 ?_ x hx'
        push_cast at hle
        linarith
    · intro hall
      have ha1 : a = 1 := hall a (List.mem_cons_self a t)
      have : (t.length : ℚ) ≤ t.sum :=
        (ih ht).2 (fun x hx => hall x (List.mem_cons_of_mem a hx))
      push_cast
      linarith

/-- C7 (amended): `words_find` fails loudly (a `ZeroDivisionError`,
embedded as `none`) on an empty word list; on a non-empty word list
whose words all lie in the compilable pattern fragment it returns a
value in the interval from 0 to 1; a word list containing a word outside
that fragment produces no value (there `re.compile` can raise
`re.error`, as it does for `C++`). -/
theorem c7_theorem (s : List Char) (words : List (List Char)) :
    (words = [] → words_find s words = none) ∧
      ((∀ w ∈ words, reCompilable w = true) → words ≠ [] →
        ∃ q : ℚ, words_find s words = some q ∧ 0 ≤ q ∧ q ≤ 1) ∧
      ((∃ w ∈ words, reCompilable w = false) → words_find s words = none) := by
  refine ⟨?_, ?_, ?_⟩
  · rintro rfl; rfl
  · intro hcomp h
    have hall : words.all reCompilable = true := List.all_eq_true.2 hcomp
    have hlen : words.length ≠ 0 := fun hc => h (List.length_eq_zero.1 hc)
    have hpos : (0 : ℚ) < (words.length : ℚ) := by
      have : 0 < words.length := Nat.pos_of_ne_zero hlen
      exact_mod_cast this
    set l : List ℚ :=
      words.map (fun w => if reSearch true (wordRegex w) s then (1 : ℚ) else 0) with hl
    have hind : ∀ x ∈ l, x = 0 ∨ x = 1 := by
      intro x hx
      rw [hl] at hx
      obtain ⟨w, _, rfl⟩ := List.mem_map.1 hx
      split <;> simp
    obtain ⟨h0, h1⟩ := indicator_sum_bounds l hind
    refine ⟨l.sum / (words.length : ℚ), ?_, ?_, ?_⟩
    · unfold words_find
      rw [if_pos hall, if_neg hlen, ← hl]
    · exact div_nonneg h0 (le_of_lt hpos)
    · rw [div_le_one hpos]
      calc l.sum ≤ (l.length : ℚ) := h1
        _ = (words.length : ℚ) := by rw [hl, List.length_map]
  · rintro ⟨w, hwmem, hwbad⟩
    have : words.all reCompilable = false := by
      rw [← Bool.not_eq_true, List.all_eq_true]
      intro hall
      rw [hall w hwmem] at hwbad
      cases hwbad
    unfold words_find
    rw [this]
    rfl

/-- C7 (counterexample): the word `C++` — producible by `words_filter`
from a company name — makes `re.compile(r'\b{w}\b')` raise `re.error`
(a dangling quantifier), so `words_find` returns no value at all instead
of a value in the unit interval. -/
theorem c7_counterexample :
    words_find ("Acme C Corp".toList) ["C++".toList] = none ∧
      reCompilable ("C++".toList) = false := by
  constructor <;> decide

/-- C7 (witness): the empty word list gives the error value, and a
concrete compilable non-empty word list gives a value between 0 and 1. -/
theorem c7_witness :
    words_find ("ab".toList) [] = none ∧
      ∃ q : ℚ, words_find ("ab".toList) ["ab".toList] = some q ∧ 0 ≤ q ∧ q ≤ 1 :=
  ⟨(c7_theorem ("ab".toList) []).1 rfl,
   (c7_theorem ("ab".toList) ["ab".toList]).2.1 (by decide) (by simp)⟩

/-! ## Helper lemmas about stripping (claim C8) -/

theorem head?_dropWhile_false {p : Char → Bool} {l : List Char} {c : Char}
    (h : (l.dropWhile p).head? = some c) : p c = false := by
  induction l with
  | nil => simp at h
  | cons a t ih =>
    rw [List.dropWhile_cons] at h
    split at h
    · exact ih h
    · rename_i hp
      simp at h
      subst h
      exact Bool.not_eq_true _ ▸ (Bool.eq_false_iff.2 hp)

theorem dropTrail_concat (p : Char → Bool) (l : List Char) (a : Char) :
    dropTrail p (l ++ [a]) = if p a then dropTrail p l else l ++ [a] := by
  unfold dropTrail
  rw [List.reverse_append, List.reverse_singleton, List.singleton_append,
    List.dropWhile_cons]
  split
  · rfl
  · simp

theorem head?_dropTrail (p : Char → Bool) (l : List Char) :
    dropTrail p l = [] ∨ (dropTrail p l).head? = l.head? := by
  induction l using List.reverseRecOn with
  | nil => exact Or.inl rfl
  | append_singleton l a ih =>
    rw [dropTrail_concat]
    split
    · rcases ih with h | h
      · exact Or.inl h
      · cases l with
        | nil => exact Or.inl rfl
        | cons b t =>
          right
          rw [h]
          simp
    · right
      cases l with
      | nil => simp
      | cons b t => simp

theorem mem_dropTrail {p : Char → Bool} {l : List Char} {c : Char}
    (h : c ∈ dropTrail p l) : c ∈ l := by
  unfold dropTrail at h
  rw [List.mem_reverse] at h
  have := (List.dropWhile_sublist p (l := l.reverse)).mem h
  rwa [List.mem_reverse] at this

theorem getLast?_dropTrail_false {p : Char → Bool} {l : List Char} {c : Char}
    (h : (dropTrail p l).getLast? = some c) : p c = false := by
  unfold dropTrail at h
  rw [List.getLast?_reverse] at h
  exact head?_dropWhile_false h

theorem removeChars_subset (chars : List Char) :
    ∀ {q : List Char} {d : Char},
      d ∈ chars.foldl (fun acc c => acc.filter (fun e => e ≠ c)) q → d ∈ q := by
  induction chars with
  | nil => intro q d h; exact h
  | cons c cs ih =>
    intro q d h
    rw [List.foldl_cons] at h
    exact List.mem_of_mem_filter (ih h)

theorem mem_removeChars (chars : List Char) :
    ∀ {q : List Char} {d : Char},
      d ∈ chars.foldl (fun acc c => acc.filter (fun e => e ≠ c)) q → d ∉ chars := by
  induction chars with
  | nil => intro q d _; exact List.not_mem_nil d
  | cons c cs ih =>
    intro q d h
    rw [List.foldl_cons] at h
    have hdq : d ∈ q.filter (fun e => e ≠ c) := removeChars_subset cs h
    have hdc : d ≠ c := by
      have := List.of_mem_filter hdq
      simpa using this
    have hdcs : d ∉ cs := ih h
    simp [hdc, hdcs]

theorem removeChars_eq_filter (chars : List Char) :
    ∀ q : List Char, chars.foldl (fun acc c => acc.filter (fun e => e ≠ c)) q =
      q.filter (fun d => !(chars.contains d)) := by
  induction chars with
  | nil =>
    intro q
    show q = q.filter (fun d => !(List.contains [] d))
    rw [List.filter_eq_self.2]
    intro d _
    rfl
  | cons c cs ih =>
    intro q
    rw [List.foldl_cons, ih, List.filter_filter]
    apply List.filter_congr
    intro d _
    rw [List.contains_cons]
    cases hdc : d == c
    · have : decide (d ≠ c) = true := by
        rw [decide_eq_true_eq]
        intro h
        subst h
        rw [beq_self_eq_true] at hdc
        cases hdc
      rw [this]
      simp
    · have : decide (d ≠ c) = false := by
        rw [decide_eq_false_iff_not]
        intro h
        rw [beq_iff_eq] at hdc
        exact h hdc
      rw [this]
      simp

theorem dropWhile_decomp (p : Char → Bool) (l : List Char) :
    ∃ pre, pre.all p = true ∧ l = pre ++ l.dropWhile p :=
  ⟨l.takeWhile p, List.all_takeWhile, (List.takeWhile_append_dropWhile p l).symm⟩

theorem dropTrail_decomp (p : Char → Bool) (l : List Char) :
    ∃ t, t.all p = true ∧ l = dropTrail p l ++ t := by
  obtain ⟨pre, hall, hdec⟩ := dropWhile_decomp p l.reverse
  refine ⟨pre.reverse, ?_, ?_⟩
  · rw [List.all_eq_true] at hall ⊢
    intro x hx
    exact hall x (List.mem_reverse.1 hx)
  · unfold dropTrail
    have h := congrArg List.reverse hdec
    rw [List.reverse_reverse, List.reverse_append] at h
    exact h

theorem pyStrip_decomp (l : List Char) :
    ∃ pre t, pre.all pyIsSpace = true ∧ t.all pyIsSpace = true ∧
      l = pre ++ pyStrip l ++ t := by
  obtain ⟨pre, h1, h2⟩ := dropWhile_decomp pyIsSpace l
  obtain ⟨t, h3, h4⟩ := dropTrail_decomp pyIsSpace (l.dropWhile pyIsSpace)
  refine ⟨pre, t, h1, h3, ?_⟩
  rw [List.append_assoc]
  show l = pre ++ (pyStrip l ++ t)
  unfold pyStrip
  rw [← h4]
  exact h2

/-- C8 (amended): the default query-string filter maps the input to the
input with exactly the characters of its fixed set removed and with
whitespace stripped from the two ends only: the character-filtered
input splits as a whitespace prefix, then the output unchanged — so the
internal whitespace of the input is preserved, not collapsed — then a
whitespace suffix; no character of the set occurs in the output, and
the output neither starts nor ends with whitespace. -/
theorem c8_theorem (chars q : List Char) :
    (∃ pre t, pre.all pyIsSpace = true ∧ t.all pyIsSpace = true ∧
      q.filter (fun d => !(chars.contains d)) =
        pre ++ filter_query_string chars q ++ t) ∧
      (∀ d ∈ filter_query_string chars q, d ∉ chars) ∧
      (∀ c, (filter_query_string chars q).head? = some c → pyIsSpace c = false) ∧
      (∀ c, (filter_query_string chars q).getLast? = some c → pyIsSpace c = false) := by
  refine ⟨?_, ?_, ?_, ?_⟩
  · obtain ⟨pre, t, h1, h2, h3⟩ :=
      pyStrip_decomp (chars.foldl (fun acc c => acc.filter (fun e => e ≠ c)) q)
    refine ⟨pre, t, h1, h2, ?_⟩
    rw [← removeChars_eq_filter chars q]
    exact h3
  · intro d hd
    unfold filter_query_string pyStrip at hd
    have h1 : d ∈ (chars.foldl (fun acc c => acc.filter (fun e => e ≠ c)) q).dropWhile
        pyIsSpace := mem_dropTrail hd
    have h2 := (List.dropWhile_sublist pyIsSpace).mem h1
    exact mem_removeChars chars h2
  · intro c hc
    unfold filter_query_string pyStrip at hc
    rcases head?_dropTrail pyIsSpace
        ((chars.foldl (fun acc c => acc.filter (fun e => e ≠ c)) q).dropWhile pyIsSpace)
      with h | h
    · rw [h] at hc; simp at hc
    · rw [h] at hc
      exact head?_dropWhile_false hc
  · intro c hc
    unfold filter_query_string pyStrip at hc
    exact getLast?_dropTrail_false hc

/-- C8 (counterexample): on the input `a␣␣b` the default filter keeps
the two adjacent internal spaces, so whitespace is not collapsed. -/
theorem c8_counterexample :
    filter_query_string default_filter_chars ("a  b".toList) = ("a  b".toList) ∧
      (((filter_query_string default_filter_chars ("a  b".toList)).zip
          (filter_query_string default_filter_chars ("a  b".toList)).tail).any
        (fun p => pyIsSpace p.1 && pyIsSpace p.2)) = true := by
  constructor <;> decide

/-- C8 (witness): a concrete input with quoting characters and
surrounding whitespace satisfies the amended description. -/
theorem c8_witness :
    (∃ pre t, pre.all pyIsSpace = true ∧ t.all pyIsSpace = true ∧
      ("  'a,x;'  ".toList).filter (fun d => !(default_filter_chars.contains d)) =
        pre ++ filter_query_string default_filter_chars ("  'a,x;'  ".toList) ++ t) ∧
      (∀ d ∈ filter_query_string default_filter_chars ("  'a,x;'  ".toList),
        d ∉ default_filter_chars) ∧
      (∀ c, (filter_query_string default_filter_chars ("  'a,x;'  ".toList)).head? = some c →
        pyIsSpace c = false) ∧
      (∀ c, (filter_query_string default_filter_chars ("  'a,x;'  ".toList)).getLast? = some c →
        pyIsSpace c = false) :=
  c8_theorem default_filter_chars ("  'a,x;'  ".toList)

/-! ## Claims C5 and C6: the per-candidate weight -/

/-- C5: a candidate whose URL ends (in its last 4 or last 5 characters,
lowercased) in a blocked file extension is assigned weight `-1`, whatever
the rule table, the attribute mapping and the fetch oracle are — in
particular no fetch result and no rule is consulted. -/
theorem c5_theorem {Pg : Type} (f : UrlFinder Pg) (fetch : List Char → Option Pg)
    (params : List Char → Option (List Char)) (r : Candidate)
    (h : pyLower (lastChars 4 r.link) ∈ exclude_ext ∨
      pyLower (lastChars 5 r.link) ∈ exclude_ext) :
    candidateWeight f fetch params r = -1 := by
  have hex : extExcluded r.link = true := by
    unfold extExcluded
    rcases h with h | h <;> simp [h]
  unfold candidateWeight
  rw [hex]
  rfl

/-- C5 (witness): a concrete `.pdf` candidate is weighted `-1` under a
configuration with a non-trivial rule table and a succeeding fetch. -/
theorem c5_witness :
    (pyLower (lastChars 4 ("http://x/a.PDF".toList)) ∈ exclude_ext ∨
      pyLower (lastChars 5 ("http://x/a.PDF".toList)) ∈ exclude_ext) ∧
    @candidateWeight (List Char)
      ⟨[("name".toList, [⟨none, fun _ _ => 1, 1, fun pg => pg⟩])], 1, true, true, 0⟩
      (fun _ => some ("page".toList)) (fun _ => some ("q".toList))
      ⟨"http://x/a.PDF".toList, [], []⟩ = -1 :=
  ⟨Or.inl (by decide),
   c5_theorem _ _ _ _ (Or.inl (by decide))⟩

/-- C6: when the fetch of a non-pre-excluded candidate fails (a
transport error, embedded as `fetch r.link = none`), that candidate
still gets a recorded weight, equal to `-1`, the weight list keeps one
entry per candidate, and the weight of any candidate with a different
URL is unchanged under any fetch oracle that agrees outside the failing
URL — the failure is local and is not propagated. -/
theorem c6_theorem {Pg : Type} (f : UrlFinder Pg) (fetch : List Char → Option Pg)
    (params : List Char → Option (List Char)) (results : List Candidate)
    (i : Nat) (r : Candidate)
    (hr : results[i]? = some r)
    (hpre : (extExcluded r.link || (f.skip_social && excludeRe r.link) ||
      (f.home_only && !isHome r.link)) = false)
    (hf : fetch r.link = none) :
    ((results.map (candidateWeight f fetch params))[i]? = some (-1)) ∧
      (results.map (candidateWeight f fetch params)).length = results.length ∧
      (∀ fetch2 : List Char → Option Pg,
        (∀ u, u ≠ r.link → fetch2 u = fetch u) →
        ∀ r2 : Candidate, r2.link ≠ r.link →
          candidateWeight f fetch2 params r2 = candidateWeight f fetch params r2) := by
  refine ⟨?_, List.length_map _ _, ?_⟩
  · rw [List.getElem?_map, hr]
    have : candidateWeight f fetch params r = -1 := by
      unfold candidateWeight
      rw [hpre, hf]
      rfl
    rw [Option.map_some', this]
  · intro fetch2 hagree r2 hlink
    unfold candidateWeight
    rw [hagree r2.link hlink]

/-- C6 (witness): a two-candidate batch where the first fetch fails and
the second candidate keeps its weight. -/
theorem c6_witness :
    ((["http://a/b".toList, "http://c/d".toList].map
        (fun u => Candidate.mk u [] []))[0]? = some ⟨"http://a/b".toList, [], []⟩) ∧
    (((["http://a/b".toList, "http://c/d".toList].map
        (fun u => Candidate.mk u [] [])).map
      (@candidateWeight Unit ⟨[], 1, false, false, 0⟩
        (fun u => if u = "http://a/b".toList then none else some ()) (fun _ => none)))[0]?
      = some ((-1 : ℚ))) := by
  refine ⟨by decide, ?_⟩
  have h := @c6_theorem Unit ⟨[], 1, false, false, 0⟩
    (fun u => if u = "http://a/b".toList then none else some ()) (fun _ => none)
    (["http://a/b".toList, "http://c/d".toList].map (fun u => Candidate.mk u [] []))
    0 ⟨"http://a/b".toList, [], []⟩ (by decide) (by decide) (by decide)
  exact h.1

/-! ## Helper lemmas about the selection step (claims C3 and C4) -/

theorem sortDesc_head? (l : List (Nat × ℚ)) : (sortDesc l).head? = firstMax l := by
  induction l with
  | nil => rfl
  | cons x xs ih =>
    show (insortDesc x (sortDesc xs)).head? = _
    cases hxs : sortDesc xs with
    | nil =>
      have h0 : firstMax xs = none := by rw [← ih, hxs]; rfl
      simp [insortDesc, firstMax, h0]
    | cons y ys =>
      have h0 : firstMax xs = some y := by rw [← ih, hxs]; rfl
      by_cases h : y.2 ≤ x.2 <;> simp [insortDesc, firstMax, h0, h]

theorem firstMax_none (l : List (Nat × ℚ)) : firstMax l = none ↔ l = [] := by
  cases l with
  | nil => simp [firstMax]
  | cons x xs =>
    cases hxs : firstMax xs with
    | none => simp [firstMax, hxs]
    | some m => by_cases h : m.2 ≤ x.2 <;> simp [firstMax, hxs, h]

theorem firstMax_mem {l : List (Nat × ℚ)} {m : Nat × ℚ}
    (h : firstMax l = some m) : m ∈ l := by
  induction l with
  | nil => simp [firstMax] at h
  | cons x xs ih =>
    cases hxs : firstMax xs with
    | none =>
      simp only [firstMax, hxs, Option.some.injEq] at h
      simp [← h]
    | some m' =>
      simp only [firstMax, hxs] at h
      split at h
      · simp only [Option.some.injEq] at h
        simp [← h]
      · simp only [Option.some.injEq] at h
        subst h
        exact List.mem_cons_of_mem x (ih hxs)

theorem firstMax_max {l : List (Nat × ℚ)} {m : Nat × ℚ}
    (h : firstMax l = some m) : ∀ x ∈ l, x.2 ≤ m.2 := by
  induction l generalizing m with
  | nil => simp [firstMax] at h
  | cons x xs ih =>
    cases hxs : firstMax xs with
    | none =>
      simp only [firstMax, hxs, Option.some.injEq] at h
      subst h
      intro z hz
      rcases List.mem_cons.1 hz with rfl | hz'
      · exact le_refl _
      · rw [firstMax_none] at hxs
        subst hxs
        simp at hz'
    | some m' =>
      simp only [firstMax, hxs] at h
      split at h
      · rename_i hle
        simp only [Option.some.injEq] at h
        subst h
        intro z hz
        rcases List.mem_cons.1 hz with rfl | hz'
        · exact le_refl _
        · exact le_trans (ih hxs z hz') hle
      · rename_i hle
        simp only [Option.some.injEq] at h
        subst h
        intro z hz
        rcases List.mem_cons.1 hz with rfl | hz'
        · exact le_of_lt (lt_of_not_le hle)
        · exact ih hxs z hz'

theorem firstMax_first {l : List (Nat × ℚ)} {m : Nat × ℚ}
    (h : firstMax l = some m) :
    ∃ pre post, l = pre ++ m :: post ∧ ∀ x ∈ pre, x.2 < m.2 := by
  induction l generalizing m with
  | nil => simp [firstMax] at h
  | cons x xs ih =>
    cases hxs : firstMax xs with
    | none =>
      simp only [firstMax, hxs, Option.some.injEq] at h
      subst h
      exact ⟨[], xs, rfl, by simp⟩
    | some m' =>
      simp only [firstMax, hxs] at h
      split at h
      · simp only [Option.some.injEq] at h
        subst h
        exact ⟨[], xs, rfl, by simp⟩
      · rename_i hle
        simp only [Option.some.injEq] at h
        subst h
        obtain ⟨pre, post, h1, h2⟩ := ih hxs
        refine ⟨x :: pre, post, by rw [h1]; rfl, ?_⟩
        intro z hz
        rcases List.mem_cons.1 hz with rfl | hz'
        · exact lt_of_not_le hle
        · exact h2 z hz'

theorem enum_getElem? (ws : List ℚ) (k : Nat) :
    (ws.enum)[k]? = (ws[k]?).map fun a => (k, a) := by
  have h := List.getElem?_enumFrom 0 ws k
  simp only [Nat.zero_add] at h
  exact h

/-- The selection step of `urlfinder_get` with its local definitions
unfolded. -/
theorem urlfinder_get_eq {Pg : Type} (f : UrlFinder Pg) (fetch : List Char → Option Pg)
    (params : List Char → Option (List Char)) (ers : List (List Candidate)) :
    urlfinder_get f fetch params ers =
      match (sortDesc ((mergeResults ers).map (candidateWeight f fetch params)).enum).head? with
      | none => none
      | some p =>
        match (mergeResults ers)[p.1]?,
            ((mergeResults ers).map (candidateWeight f fetch params))[p.1]? with
        | some r, some w => if f.threshold ≤ w then some r.link else none
        | _, _ => none := rfl

/-- C3: if a maximal weight `m` exists and reaches the threshold
(equality included) the returned value is the URL of a candidate whose
weight is `m`; if `m` is strictly below the threshold, or no candidate
was retrieved, the result is `none` (and the computation is total, so no
exception escapes). -/
theorem c3_theorem {Pg : Type} (f : UrlFinder Pg) (fetch : List Char → Option Pg)
    (params : List Char → Option (List Char)) (engineResults : List (List Candidate)) :
    (mergeResults engineResults = [] → urlfinder_get f fetch params engineResults = none) ∧
      (∀ m : ℚ,
        m ∈ (mergeResults engineResults).map (candidateWeight f fetch params) →
        (∀ x ∈ (mergeResults engineResults).map (candidateWeight f fetch params), x ≤ m) →
        (f.threshold ≤ m →
          ∃ (idx : Nat) (r : Candidate),
            (mergeResults engineResults)[idx]? = some r ∧
            ((mergeResults engineResults).map (candidateWeight f fetch params))[idx]? = some m ∧
            urlfinder_get f fetch params engineResults = some r.link) ∧
        (m < f.threshold → urlfinder_get f fetch params engineResults = none)) := by
  constructor
  · intro h
    rw [urlfinder_get_eq, h]
    rfl
  · intro m hmem hall
    set results := mergeResults engineResults with hres
    set ws := results.map (candidateWeight f fetch params) with hws
    obtain ⟨p, hp⟩ : ∃ p, firstMax ws.enum = some p := by
      cases hfm : firstMax ws.enum with
      | none =>
        rw [firstMax_none] at hfm
        have : ws = [] := by
          cases hw : ws with
          | nil => rfl
          | cons a t => rw [hw] at hfm; simp [List.enum_cons] at hfm
        rw [this] at hmem
        simp at hmem
      | some p => exact ⟨p, rfl⟩
    have hp1 : ws[p.1]? = some p.2 := by
      obtain ⟨k, hk⟩ := List.mem_iff_getElem?.1 (firstMax_mem hp)
      rw [enum_getElem?] at hk
      cases hwk : ws[k]? with
      | none => rw [hwk] at hk; simp at hk
      | some a =>
        rw [hwk] at hk
        simp at hk
        rw [← hk]
        simpa using hwk
    have hp2 : p.2 = m := by
      refine le_antisymm (hall p.2 (List.getElem?_mem hp1)) ?_
      obtain ⟨k, hk⟩ := List.mem_iff_getElem?.1 hmem
      have hkm : ((k, m) : Nat × ℚ) ∈ ws.enum := by
        rw [List.mem_iff_getElem?]
        exact ⟨k, by rw [enum_getElem?, hk]; rfl⟩
      exact firstMax_max hp _ hkm
    have hlt : p.1 < results.length := by
      have h1 := (List.getElem?_eq_some_iff.1 hp1).1
      rwa [hws, List.length_map] at h1
    obtain ⟨r, hr⟩ : ∃ r, results[p.1]? = some r := by
      rw [List.getElem?_eq_getElem hlt]
      exact ⟨_, rfl⟩
    have hwm : ws[p.1]? = some m := by rw [hp1, hp2]
    constructor
    · intro hth
      refine ⟨p.1, r, hr, hwm, ?_⟩
      rw [urlfinder_get_eq, ← hres, ← hws, sortDesc_head?, hp]
      simp [hr, hwm, hth]
    · intro hth
      rw [urlfinder_get_eq, ← hres, ← hws, sortDesc_head?, hp]
      simp [hr, hwm, not_le.2 hth]

theorem candidateWeight_home_eval (u : List Char)
    (h1 : extExcluded u = false) (h2 : isHome u = true) :
    @candidateWeight Unit ⟨[], 1, false, false, 1⟩ (fun _ => some ())
      (fun _ => none) ⟨u, [], []⟩ = 1 := by
  unfold candidateWeight
  simp only [h1, h2, Bool.false_and, Bool.or_self, Bool.or_false, Bool.false_or,
    if_true, if_false, Bool.false_eq_true, ite_false, ite_true]
  simp [procScore]

/-- C3 (witness): one home-page candidate with weight exactly equal to
the threshold is selected. -/
theorem c3_witness :
    ((1 : ℚ) ∈ (mergeResults [[⟨"http://a/".toList, [], []⟩]]).map
        (@candidateWeight Unit ⟨[], 1, false, false, 1⟩ (fun _ => some ())
          (fun _ => none))) ∧
      (∃ (idx : Nat) (r : Candidate),
        (mergeResults [[⟨"http://a/".toList, [], []⟩]])[idx]? = some r ∧
        ((mergeResults [[⟨"http://a/".toList, [], []⟩]]).map
          (@candidateWeight Unit ⟨[], 1, false, false, 1⟩ (fun _ => some ())
            (fun _ => none)))[idx]? = some 1 ∧
        @urlfinder_get Unit ⟨[], 1, false, false, 1⟩ (fun _ => some ())
          (fun _ => none) [[⟨"http://a/".toList, [], []⟩]] = some r.link) := by
  have hmr : mergeResults [[(⟨"http://a/".toList, [], []⟩ : Candidate)]] =
      [⟨"http://a/".toList, [], []⟩] := by decide
  have hw := candidateWeight_home_eval ("http://a/".toList) (by decide) (by decide)
  have hmem : (1 : ℚ) ∈ (mergeResults [[(⟨"http://a/".toList, [], []⟩ : Candidate)]]).map
      (@candidateWeight Unit ⟨[], 1, false, false, 1⟩ (fun _ => some ())
        (fun _ => none)) := by
    rw [hmr, List.map_cons, List.map_nil, hw]
    simp
  have hall : ∀ x ∈ (mergeResults [[(⟨"http://a/".toList, [], []⟩ : Candidate)]]).map
      (@candidateWeight Unit ⟨[], 1, false, false, 1⟩ (fun _ => some ())
        (fun _ => none)), x ≤ 1 := by
    rw [hmr, List.map_cons, List.map_nil, hw]
    simp
  exact ⟨hmem,
    ((@c3_theorem Unit ⟨[], 1, false, false, 1⟩ (fun _ => some ())
      (fun _ => none) [[⟨"http://a/".toList, [], []⟩]]).2 1 hmem hall).1 (le_refl 1)⟩

/-- C4: under ties for the maximal weight the selection is the
first-occurring maximal candidate: the selected index carries the
maximal weight and every earlier index carries a strictly smaller
weight.  The selection is a pure function of the merged candidate list
and the weights, so repeated evaluation returns the same URL. -/
theorem c4_theorem {Pg : Type} (f : UrlFinder Pg) (fetch : List Char → Option Pg)
    (params : List Char → Option (List Char)) (engineResults : List (List Candidate))
    (m : ℚ)
    (hmem : m ∈ (mergeResults engineResults).map (candidateWeight f fetch params))
    (hall : ∀ x ∈ (mergeResults engineResults).map (candidateWeight f fetch params), x ≤ m)
    (_hties : ∃ i j : Nat, i ≠ j ∧
      ((mergeResults engineResults).map (candidateWeight f fetch params))[i]? = some m ∧
      ((mergeResults engineResults).map (candidateWeight f fetch params))[j]? = some m)
    (hth : f.threshold ≤ m) :
    ∃ (idx : Nat) (r : Candidate),
      ((mergeResults engineResults).map (candidateWeight f fetch params))[idx]? = some m ∧
      (∀ k, k < idx → ∀ w : ℚ,
        ((mergeResults engineResults).map (candidateWeight f fetch params))[k]? = some w →
        w < m) ∧
      (mergeResults engineResults)[idx]? = some r ∧
      urlfinder_get f fetch params engineResults = some r.link := by
  set results := mergeResults engineResults with hres
  set ws := results.map (candidateWeight f fetch params) with hws
  obtain ⟨p, hp⟩ : ∃ p, firstMax ws.enum = some p := by
    cases hfm : firstMax ws.enum with
    | none =>
      rw [firstMax_none] at hfm
      have : ws = [] := by
        cases hw : ws with
        | nil => rfl
        | cons a t => rw [hw] at hfm; simp [List.enum_cons] at hfm
      rw [this] at hmem
      simp at hmem
    | some p => exact ⟨p, rfl⟩
  have hp1 : ws[p.1]? = some p.2 := by
    obtain ⟨k, hk⟩ := List.mem_iff_getElem?.1 (firstMax_mem hp)
    rw [enum_getElem?] at hk
    cases hwk : ws[k]? with
    | none => rw [hwk] at hk; simp at hk
    | some a =>
      rw [hwk] at hk
      simp at hk
      rw [← hk]
      simpa using hwk
  have hp2 : p.2 = m := by
    refine le_antisymm (hall p.2 (List.getElem?_mem hp1)) ?_
    obtain ⟨k, hk⟩ := List.mem_iff_getElem?.1 hmem
    have hkm : ((k, m) : Nat × ℚ) ∈ ws.enum := by
      rw [List.mem_iff_getElem?]
      exact ⟨k, by rw [enum_getElem?, hk]; rfl⟩
    exact firstMax_max hp _ hkm
  have hlt : p.1 < results.length := by
    have h1 := (List.getElem?_eq_some_iff.1 hp1).1
    rwa [hws, List.length_map] at h1
  obtain ⟨r, hr⟩ : ∃ r, results[p.1]? = some r := by
    rw [List.getElem?_eq_getElem hlt]
    exact ⟨_, rfl⟩
  have hwm : ws[p.1]? = some m := by rw [hp1, hp2]
  -- the first-occurrence property, from the decomposition of the sorted enum
  obtain ⟨pre, post, hdec, hpre⟩ := firstMax_first hp
  have hplen : p.1 = pre.length := by
    have h1 : (ws.enum)[pre.length]? = some p := by
      rw [hdec, List.getElem?_append_right (le_refl pre.length)]
      simp
    rw [enum_getElem?] at h1
    cases hwk : ws[pre.length]? with
    | none => rw [hwk] at h1; simp at h1
    | some a =>
      rw [hwk] at h1
      simp at h1
      rw [← h1]
  refine ⟨p.1, r, hwm, ?_, hr, ?_⟩
  · intro k hk w hkw
    have hklt : k < pre.length := by rwa [hplen] at hk
    have h1 : (ws.enum)[k]? = pre[k]? := by
      rw [hdec, List.getElem?_append_left hklt]
    have h2 : pre[k]? = some (k, w) := by
      rw [← h1, enum_getElem?, hkw]
      rfl
    have h3 : ((k, w) : Nat × ℚ) ∈ pre := List.getElem?_mem h2
    have := hpre _ h3
    rwa [hp2] at this
  · rw [urlfinder_get_eq, ← hres, ← hws, sortDesc_head?, hp]
    simp [hr, hwm, hth]

/-- C4 (witness): two home-page candidates with equal maximal weight;
the first one is returned. -/
theorem c4_witness :
    (∃ (idx : Nat) (r : Candidate),
      ((mergeResults [[⟨"http://a/".toList, [], []⟩, ⟨"http://b/".toList, [], []⟩]]).map
        (@candidateWeight Unit ⟨[], 1, false, false, 1⟩ (fun _ => some ())
          (fun _ => none)))[idx]? = some 1 ∧
      (∀ k, k < idx → ∀ w : ℚ,
        ((mergeResults [[⟨"http://a/".toList, [], []⟩, ⟨"http://b/".toList, [], []⟩]]).map
          (@candidateWeight Unit ⟨[], 1, false, false, 1⟩ (fun _ => some ())
            (fun _ => none)))[k]? = some w → w < 1) ∧
      (mergeResults [[⟨"http://a/".toList, [], []⟩, ⟨"http://b/".toList, [], []⟩]])[idx]?
        = some r ∧
      @urlfinder_get Unit ⟨[], 1, false, false, 1⟩ (fun _ => some ()) (fun _ => none)
        [[⟨"http://a/".toList, [], []⟩, ⟨"http://b/".toList, [], []⟩]] = some r.link) := by
  have hmr : mergeResults [[(⟨"http://a/".toList, [], []⟩ : Candidate),
      ⟨"http://b/".toList, [], []⟩]] =
      [⟨"http://a/".toList, [], []⟩, ⟨"http://b/".toList, [], []⟩] := by decide
  have hwa := candidateWeight_home_eval ("http://a/".toList) (by decide) (by decide)
  have hwb := candidateWeight_home_eval ("http://b/".toList) (by decide) (by decide)
  have hmap : (mergeResults [[(⟨"http://a/".toList, [], []⟩ : Candidate),
      ⟨"http://b/".toList, [], []⟩]]).map
      (@candidateWeight Unit ⟨[], 1, false, false, 1⟩ (fun _ => some ())
        (fun _ => none)) = [1, 1] := by
    rw [hmr, List.map_cons, List.map_cons, List.map_nil, hwa, hwb]
  refine @c4_theorem Unit ⟨[], 1, false, false, 1⟩ (fun _ => some ()) (fun _ => none)
    [[⟨"http://a/".toList, [], []⟩, ⟨"http://b/".toList, [], []⟩]] 1
    ?_ ?_ ⟨0, 1, by decide, ?_, ?_⟩ (le_refl 1)
  · rw [hmap]; simp
  · rw [hmap]; simp
  · rw [hmap]; rfl
  · rw [hmap]; rfl

/-! ## Helper lemmas about the regex engine (claims C2, C9 and C10) -/

theorem matchEnds_eps (ci : Bool) (s : List Char) (fuel : Nat) (i : Nat) :
    matchEnds ci s fuel .eps i = [i] := by
  cases fuel <;> rfl

theorem matchEnds_wordB (ci : Bool) (s : List Char) (fuel : Nat) (i : Nat) :
    matchEnds ci s fuel .wordB i = if boundaryAt s i then [i] else [] := by
  cases fuel <;> rfl

theorem matchEnds_eol (ci : Bool) (s : List Char) (fuel : Nat) (i : Nat) :
    matchEnds ci s fuel .eol i =
      if i = s.length ∨ (i + 1 = s.length ∧ s[i]? = some '\n') then [i] else [] := by
  cases fuel <;> rfl

theorem matchEnds_char (ci : Bool) (s : List Char) (fuel : Nat) (c : Char) (i : Nat) :
    matchEnds ci s fuel (.char c) i =
      match s[i]? with
      | some d => if charMatch ci c d then [i + 1] else []
      | none => [] := by
  cases fuel <;> rfl

theorem matchEnds_any (ci : Bool) (s : List Char) (fuel : Nat) (i : Nat) :
    matchEnds ci s fuel .anyCh i =
      match s[i]? with
      | some d => if d = '\n' then [] else [i + 1]
      | none => [] := by
  cases fuel <;> rfl

theorem matchEnds_concat (ci : Bool) (s : List Char) (fuel : Nat) (r1 r2 : Regex) (i : Nat) :
    matchEnds ci s fuel (.concat r1 r2) i =
      (matchEnds ci s fuel r1 i).flatMap (matchEnds ci s fuel r2) := by
  cases fuel <;> rfl

theorem matchEnds_alt (ci : Bool) (s : List Char) (fuel : Nat) (r1 r2 : Regex) (i : Nat) :
    matchEnds ci s fuel (.alt r1 r2) i =
      matchEnds ci s fuel r1 i ++ matchEnds ci s fuel r2 i := by
  cases fuel <;> rfl

theorem matchEnds_star_succ (ci : Bool) (s : List Char) (fuel : Nat) (r : Regex) (i : Nat) :
    matchEnds ci s (fuel + 1) (.star r) i =
      i :: ((matchEnds ci s (fuel + 1) r i).filter (fun j => i < j)).flatMap
        (matchEnds ci s fuel (.star r)) := rfl

theorem self_mem_matchEnds_star (ci : Bool) (s : List Char) (fuel : Nat) (r : Regex)
    (i : Nat) : i ∈ matchEnds ci s fuel (.star r) i := by
  cases fuel with
  | zero => exact List.mem_singleton.2 rfl
  | succ n => rw [matchEnds_star_succ]; exact List.mem_cons_self i _

theorem matchEnds_lit (ci : Bool) (s : List Char) (fuel : Nat) (w : List Char) :
    ∀ i, matchEnds ci s fuel (lit w) i =
      if litMatchAt ci w (s.drop i) then [i + w.length] else [] := by
  induction w with
  | nil =>
    intro i
    simp [lit, matchEnds_eps, litMatchAt]
  | cons c w ih =>
    intro i
    show matchEnds ci s fuel (.concat (.char c) (lit w)) i = _
    rw [matchEnds_concat, matchEnds_char]
    cases hsi : s[i]? with
    | none =>
      have hdrop : s.drop i = [] :=
        List.drop_eq_nil_of_le (List.getElem?_eq_none_iff.1 hsi)
      rw [hdrop]
      simp [litMatchAt]
    | some d =>
      have hi : i < s.length := by
        rcases Nat.lt_or_ge i s.length with h | h
        · exact h
        · rw [List.getElem?_eq_none h] at hsi; cases hsi
      have hdrop : s.drop i = d :: s.drop (i + 1) := by
        rw [List.drop_eq_getElem_cons hi]
        congr 1
        have := List.getElem?_eq_getElem hi
        rw [this] at hsi
        exact (Option.some.injEq _ _ ▸ hsi)
      rw [hdrop]
      show (if charMatch ci c d then [i + 1] else []).flatMap (matchEnds ci s fuel (lit w)) = _
      by_cases hc : charMatch ci c d
      · rw [if_pos hc]
        show matchEnds ci s fuel (lit w) (i + 1) ++ [] = _
        rw [List.append_nil, ih (i + 1)]
        have harith : i + 1 + w.length = i + (c :: w).length := by
          simp [List.length_cons]
          omega
        by_cases hlm : litMatchAt ci w (s.drop (i + 1))
        · rw [if_pos hlm, if_pos, harith]
          show (charMatch ci c d && litMatchAt ci w (s.drop (i + 1))) = true
          rw [hc, hlm]
          rfl
        · rw [if_neg hlm, if_neg]
          intro hcon
          apply hlm
          have h2 : (charMatch ci c d && litMatchAt ci w (s.drop (i + 1))) = true := hcon
          rw [Bool.and_eq_true] at h2
          exact h2.2
      · rw [if_neg hc]
        show ([] : List Nat) = _
        rw [if_neg]
        intro hcon
        apply hc
        have h2 : (charMatch ci c d && litMatchAt ci w (s.drop (i + 1))) = true := hcon
        rw [Bool.and_eq_true] at h2
        exact h2.1

theorem compilePattern_eq_lit {p : List Char} (h : ∀ c ∈ p, c ≠ '.') :
    compilePattern p = lit p := by
  induction p with
  | nil => rfl
  | cons c w ih =>
    show Regex.concat (if c = '.' then .anyCh else .char c) (compilePattern w) = _
    rw [if_neg (h c (List.mem_cons_self c w)),
      ih (fun d hd => h d (List.mem_cons_of_mem c hd))]
    rfl

theorem charMatch_true_iff {c d : Char} :
    charMatch true c d = true ↔ pyToLower c = pyToLower d := by
  simp [charMatch]

theorem litMatchAt_true_iff (w : List Char) :
    ∀ v, litMatchAt true w v = true ↔
      ∃ t, v.map pyToLower = w.map pyToLower ++ t := by
  induction w with
  | nil => intro v; simp [litMatchAt]
  | cons c w ih =>
    intro v
    cases v with
    | nil =>
      simp only [litMatchAt, List.map_nil, List.map_cons, List.cons_append]
      constructor
      · intro h; cases h
      · rintro ⟨t, ht⟩; cases ht
    | cons d v' =>
      simp only [litMatchAt, Bool.and_eq_true, List.map_cons, List.cons_append,
        List.cons.injEq, charMatch_true_iff]
      constructor
      · rintro ⟨h1, h2⟩
        obtain ⟨t, ht⟩ := (ih v').1 h2
        exact ⟨t, h1.symm, ht⟩
      · rintro ⟨t, h1, h2⟩
        exact ⟨h1.symm, (ih v').2 ⟨t, h2⟩⟩

theorem reSearch_eq_true_iff (ci : Bool) (r : Regex) (s : List Char) :
    reSearch ci r s = true ↔
      ∃ i, i ≤ s.length ∧ matchEnds ci s (s.length + 1) r i ≠ [] := by
  unfold reSearch
  rw [List.any_eq_true]
  constructor
  · rintro ⟨i, hi, hne⟩
    rw [List.mem_range, Nat.lt_succ_iff] at hi
    refine ⟨i, hi, ?_⟩
    simpa using hne
  · rintro ⟨i, hi, hne⟩
    refine ⟨i, ?_, ?_⟩
    · rw [List.mem_range, Nat.lt_succ_iff]; exact hi
    · simpa using hne

theorem reSearch_lit_iff (s w : List Char) :
    reSearch true (lit w) s = true ↔
      ∃ a b, s.map pyToLower = a ++ w.map pyToLower ++ b := by
  rw [reSearch_eq_true_iff]
  constructor
  · rintro ⟨i, hi, hne⟩
    rw [matchEnds_lit] at hne
    have hlm : litMatchAt true w (s.drop i) = true := by
      by_contra h
      rw [if_neg h] at hne
      exact hne rfl
    obtain ⟨t, ht⟩ := (litMatchAt_true_iff w _).1 hlm
    refine ⟨(s.take i).map pyToLower, t, ?_⟩
    calc s.map pyToLower
        = ((s.take i) ++ (s.drop i)).map pyToLower := by rw [List.take_append_drop]
      _ = (s.take i).map pyToLower ++ (s.drop i).map pyToLower := by rw [List.map_append]
      _ = (s.take i).map pyToLower ++ (w.map pyToLower ++ t) := by rw [ht]
      _ = (s.take i).map pyToLower ++ w.map pyToLower ++ t := by rw [List.append_assoc]
  · rintro ⟨a, b, hab⟩
    have hlen : s.length = a.length + w.length + b.length := by
      have h := congrArg List.length hab
      simp at h
      omega
    refine ⟨a.length, by omega, ?_⟩
    rw [matchEnds_lit, if_pos]
    · simp
    · rw [litMatchAt_true_iff]
      refine ⟨b, ?_⟩
      have h1 : (s.drop a.length).map pyToLower = (s.map pyToLower).drop a.length := by
        rw [List.map_drop]
      rw [h1, hab, List.append_assoc, List.drop_left]

/-- C2 (amended): `str_find_all(s, s2)` is true exactly when `s2` is
non-empty and the accent-stripped `s2`, read as a regex pattern, matches
case-insensitively somewhere inside `s`; for a metacharacter-free query
this is plain case-insensitive substring containment — there is no
whole-word boundary requirement. -/
theorem c2_theorem (s s2 : List Char)
    (h : ∀ c ∈ strip_accents s2, isRegexMeta c = false) :
    str_find_all s s2 = true ↔
      s2 ≠ [] ∧ ∃ a b, s.map pyToLower = a ++ (strip_accents s2).map pyToLower ++ b := by
  unfold str_find_all
  have hcl : compilePattern (strip_accents s2) = lit (strip_accents s2) := by
    refine compilePattern_eq_lit (fun c hc hdot => ?_)
    have hm := h c hc
    rw [hdot] at hm
    exact absurd hm (by decide)
  rw [hcl, Bool.and_eq_true, reSearch_lit_iff]
  simp

/-- C2 (counterexample): the query `cat` is reported found in the text
`scatter`, although it does not occur there as a whole word — the code
searches without word boundaries; and the query `a.c` is reported found
in `abc` — the dot acts as a metacharacter instead of being matched
literally. -/
theorem c2_counterexample :
    (str_find_all ("scatter".toList) ("cat".toList) = true ∧
      specContainsAll ("scatter".toList) ("cat".toList) = false) ∧
    (str_find_all ("abc".toList) ("a.c".toList) = true ∧
      specContainsAll ("abc".toList) ("a.c".toList) = false) := by
  refine ⟨⟨?_, ?_⟩, ?_, ?_⟩ <;> decide

/-- C2 (witness): a metacharacter-free query on a concrete text, with
both sides of the amended equivalence true. -/
theorem c2_witness :
    (∀ c ∈ strip_accents ("cat".toList), isRegexMeta c = false) ∧
      (str_find_all ("Scatter".toList) ("cat".toList) = true ↔
        ("cat".toList ≠ []) ∧ ∃ a b, ("Scatter".toList).map pyToLower =
          a ++ (strip_accents ("cat".toList)).map pyToLower ++ b) :=
  ⟨by decide, c2_theorem ("Scatter".toList) ("cat".toList) (by decide)⟩

/-! ## Helper lemmas for whole-word matching (claim C9) -/

theorem bool_eq_of_iff {a b : Bool} (h : a = true ↔ b = true) : a = b := by
  cases a <;> cases b <;> simp_all

theorem litMatchAt_length_le {ci : Bool} {w : List Char} :
    ∀ {v : List Char}, litMatchAt ci w v = true → w.length ≤ v.length := by
  induction w with
  | nil => intro v _; simp
  | cons c w ih =>
    intro v h
    cases v with
    | nil => cases h
    | cons d v' =>
      unfold litMatchAt at h
      rw [Bool.and_eq_true] at h
      simpa using ih h.2

theorem litMatchAt_getElem {ci : Bool} {w : List Char} :
    ∀ {v : List Char}, litMatchAt ci w v = true →
      ∀ k, k < w.length → ∃ c d, w[k]? = some c ∧ v[k]? = some d ∧
        charMatch ci c d = true := by
  induction w with
  | nil => intro v _ k hk; simp at hk
  | cons c w ih =>
    intro v h k hk
    cases v with
    | nil => cases h
    | cons d v' =>
      unfold litMatchAt at h
      rw [Bool.and_eq_true] at h
      cases k with
      | zero => exact ⟨c, d, List.getElem?_cons_zero, List.getElem?_cons_zero, h.1⟩
      | succ k' =>
        obtain ⟨c', d', h1, h2, h3⟩ := ih h.2 k' (by simpa using hk)
        exact ⟨c', d', by simpa using h1, by simpa using h2, h3⟩

theorem litMatchAt_of_getElem {ci : Bool} {w : List Char} :
    ∀ {v : List Char},
      (∀ k, k < w.length → ∃ c d, w[k]? = some c ∧ v[k]? = some d ∧
        charMatch ci c d = true) →
      litMatchAt ci w v = true := by
  induction w with
  | nil => intro v _; rfl
  | cons c w ih =>
    intro v h
    obtain ⟨c0, d0, hc0, hd0, hm0⟩ := h 0 (by simp)
    rw [List.getElem?_cons_zero] at hc0
    injection hc0 with hc0
    subst hc0
    cases v with
    | nil => simp at hd0
    | cons d v' =>
      rw [List.getElem?_cons_zero] at hd0
      injection hd0 with hd0
      subst hd0
      unfold litMatchAt
      rw [Bool.and_eq_true]
      refine ⟨hm0, ih ?_⟩
      intro k hk
      obtain ⟨c', d', h1, h2, h3⟩ := h (k + 1) (by simpa using Nat.succ_lt_succ hk)
      rw [List.getElem?_cons_succ] at h1 h2
      exact ⟨c', d', h1, h2, h3⟩

theorem toNat_ofNat_of_valid {n : Nat} (h : n < 55296) : (Char.ofNat n).toNat = n := by
  unfold Char.ofNat
  rw [dif_pos (Or.inl h)]
  rfl

theorem isWordChar_pyToLower (c : Char) : isWordChar (pyToLower c) = isWordChar c := by
  unfold pyToLower
  split
  · rename_i h
    have ht : (Char.ofNat (c.toNat + 32)).toNat = c.toNat + 32 :=
      toNat_ofNat_of_valid (by omega)
    have hL : isWordChar (Char.ofNat (c.toNat + 32)) = true := by
      unfold isWordChar
      rw [ht]
      simp
      omega
    have hR : isWordChar c = true := by
      unfold isWordChar
      simp
      omega
    rw [hL, hR]
  · rfl

theorem isWordChar_of_charMatch {c d : Char} (h : charMatch true c d = true) :
    isWordChar d = isWordChar c := by
  rw [charMatch_true_iff] at h
  rw [← isWordChar_pyToLower c, ← isWordChar_pyToLower d, h]

theorem occursWholeWord_true_iff (w u : List Char) :
    occursWholeWord w u = true ↔
      ∃ i, i ≤ u.length ∧ litMatchAt true w (u.drop i) = true ∧
        prevIsWord u i = false ∧ idxIsWord u (i + w.length) = false := by
  unfold occursWholeWord
  rw [List.any_eq_true]
  constructor
  · rintro ⟨i, hi, hcond⟩
    rw [List.mem_range, Nat.lt_succ_iff] at hi
    rw [Bool.and_eq_true, Bool.and_eq_true] at hcond
    obtain ⟨⟨h1, h2⟩, h3⟩ := hcond
    rw [Bool.not_eq_true'] at h2 h3
    exact ⟨i, hi, h1, h2, h3⟩
  · rintro ⟨i, hi, h1, h2, h3⟩
    refine ⟨i, by rw [List.mem_range, Nat.lt_succ_iff]; exact hi, ?_⟩
    rw [Bool.and_eq_true, Bool.and_eq_true, Bool.not_eq_true', Bool.not_eq_true']
    exact ⟨⟨h1, h2⟩, h3⟩

theorem matchEnds_wordRegex (s w : List Char) (fuel : Nat) (i : Nat)
    (hw : ∀ c ∈ w, c ≠ '.') :
    matchEnds true s fuel (wordRegex w) i =
      if boundaryAt s i && litMatchAt true w (s.drop i) && boundaryAt s (i + w.length)
      then [i + w.length] else [] := by
  unfold wordRegex
  rw [compilePattern_eq_lit hw, matchEnds_concat, matchEnds_wordB]
  by_cases hb : boundaryAt s i
  · rw [if_pos hb, List.flatMap_cons, List.flatMap_nil, List.append_nil,
      matchEnds_concat, matchEnds_lit]
    by_cases hlm : litMatchAt true w (s.drop i)
    · rw [if_pos hlm, List.flatMap_cons, List.flatMap_nil, List.append_nil,
        matchEnds_wordB]
      by_cases hb2 : boundaryAt s (i + w.length)
      · rw [if_pos hb2, if_pos]
        rw [hb, hlm, hb2]
        rfl
      · rw [if_neg hb2, if_neg]
        rw [hb, hlm]
        simpa using hb2
    · rw [if_neg hlm, List.flatMap_nil, if_neg]
      rw [hb]
      intro hcon
      apply hlm
      rw [Bool.and_eq_true, Bool.and_eq_true] at hcon
      exact hcon.1.2
  · rw [if_neg hb, List.flatMap_nil, if_neg]
    intro hcon
    apply hb
    rw [Bool.and_eq_true, Bool.and_eq_true] at hcon
    exact hcon.1.1

theorem boundary_head_of_lit {s w : List Char} {i : Nat} (hne : w ≠ [])
    (hw : ∀ c ∈ w, isWordChar c = true)
    (hlm : litMatchAt true w (s.drop i) = true) :
    idxIsWord s i = true := by
  obtain ⟨c, d, hc, hd, hm⟩ := litMatchAt_getElem hlm 0 (by
    cases w with
    | nil => exact absurd rfl hne
    | cons a t => simp)
  rw [List.getElem?_drop, Nat.add_zero] at hd
  unfold idxIsWord
  rw [hd]
  show isWordChar d = true
  rw [isWordChar_of_charMatch hm]
  exact hw c (List.getElem?_mem hc)

theorem boundary_last_of_lit {s w : List Char} {i : Nat} (hne : w ≠ [])
    (hw : ∀ c ∈ w, isWordChar c = true)
    (hlm : litMatchAt true w (s.drop i) = true) :
    prevIsWord s (i + w.length) = true := by
  have hlen : 1 ≤ w.length := by
    cases w with
    | nil => exact absurd rfl hne
    | cons a t => simp
  obtain ⟨c, d, hc, hd, hm⟩ := litMatchAt_getElem hlm (w.length - 1) (by omega)
  rw [List.getElem?_drop] at hd
  have harith : i + w.length = (i + (w.length - 1)) + 1 := by omega
  rw [harith]
  show idxIsWord s (i + (w.length - 1)) = true
  unfold idxIsWord
  rw [hd]
  show isWordChar d = true
  rw [isWordChar_of_charMatch hm]
  exact hw c (List.getElem?_mem hc)

theorem boundaryAt_eq_of_lit {s w : List Char} {i : Nat} (hne : w ≠ [])
    (hw : ∀ c ∈ w, isWordChar c = true)
    (hlm : litMatchAt true w (s.drop i) = true) :
    (boundaryAt s i = !prevIsWord s i) ∧
      (boundaryAt s (i + w.length) = !idxIsWord s (i + w.length)) := by
  constructor
  · unfold boundaryAt
    rw [boundary_head_of_lit hne hw hlm]
    cases prevIsWord s i <;> rfl
  · unfold boundaryAt
    rw [boundary_last_of_lit hne hw hlm]
    cases idxIsWord s (i + w.length) <;> rfl

/-- For a non-empty word consisting of word characters, the search for
the pattern `\b w \b` succeeds exactly when the word occurs with no word
character adjacent on either side. -/
theorem reSearch_wordRegex_iff (s w : List Char) (hne : w ≠ [])
    (hw : ∀ c ∈ w, isWordChar c = true) :
    reSearch true (wordRegex w) s = true ↔ occursWholeWord w s = true := by
  have hdot : ∀ c ∈ w, c ≠ '.' := by
    intro c hc he
    subst he
    exact absurd (hw _ hc) (by decide)
  rw [reSearch_eq_true_iff, occursWholeWord_true_iff]
  constructor
  · rintro ⟨i, hi, hnz⟩
    rw [matchEnds_wordRegex s w _ i hdot] at hnz
    have hcond : (boundaryAt s i && litMatchAt true w (s.drop i) &&
        boundaryAt s (i + w.length)) = true := by
      by_contra h
      rw [if_neg] at hnz
      · exact hnz rfl
      · simpa using h
    rw [Bool.and_eq_true, Bool.and_eq_true] at hcond
    obtain ⟨⟨hb1, hlm⟩, hb2⟩ := hcond
    obtain ⟨he1, he2⟩ := boundaryAt_eq_of_lit hne hw hlm
    refine ⟨i, hi, hlm, ?_, ?_⟩
    · rw [he1] at hb1
      simpa using hb1
    · rw [he2] at hb2
      simpa using hb2
  · rintro ⟨i, hi, hlm, hp, hx⟩
    refine ⟨i, hi, ?_⟩
    rw [matchEnds_wordRegex s w _ i hdot, if_pos]
    · simp
    · obtain ⟨he1, he2⟩ := boundaryAt_eq_of_lit hne hw hlm
      rw [Bool.and_eq_true, Bool.and_eq_true, he1, he2, hp, hx]
      exact ⟨⟨rfl, hlm⟩, rfl⟩

theorem idxIsWord_cons_zero (c : Char) (l : List Char) :
    idxIsWord (c :: l) 0 = isWordChar c := by
  unfold idxIsWord
  rw [List.getElem?_cons_zero]

theorem idxIsWord_cons_succ (c : Char) (l : List Char) (k : Nat) :
    idxIsWord (c :: l) (k + 1) = idxIsWord l k := by
  unfold idxIsWord
  rw [List.getElem?_cons_succ]

theorem prevIsWord_cons_succ (c : Char) (l : List Char) (i : Nat)
    (hc : isWordChar c = false) :
    prevIsWord (c :: l) (i + 1) = prevIsWord l i := by
  cases i with
  | zero =>
    show idxIsWord (c :: l) 0 = false
    rw [idxIsWord_cons_zero]
    exact hc
  | succ k =>
    show idxIsWord (c :: l) (k + 1) = idxIsWord l k
    exact idxIsWord_cons_succ c l k

theorem idxIsWord_append_lt {l : List Char} {c : Char} {k : Nat} (h : k < l.length) :
    idxIsWord (l ++ [c]) k = idxIsWord l k := by
  unfold idxIsWord
  rw [List.getElem?_append_left h]

theorem idxIsWord_append_length (l : List Char) (c : Char) :
    idxIsWord (l ++ [c]) l.length = isWordChar c := by
  unfold idxIsWord
  rw [List.getElem?_append_right (le_refl _)]
  simp

theorem idxIsWord_ge_length {l : List Char} {k : Nat} (h : l.length ≤ k) :
    idxIsWord l k = false := by
  unfold idxIsWord
  rw [List.getElem?_eq_none h]

theorem litMatchAt_append_iff {w l : List Char} {c : Char} {i : Nat} (ci : Bool)
    (h : i + w.length ≤ l.length) :
    litMatchAt ci w ((l ++ [c]).drop i) = litMatchAt ci w (l.drop i) := by
  apply bool_eq_of_iff
  have hpos : ∀ k, k < w.length → ((l ++ [c]).drop i)[k]? = (l.drop i)[k]? := by
    intro k hk
    rw [List.getElem?_drop, List.getElem?_drop, List.getElem?_append_left (by omega)]
  constructor <;> intro hlm
  · apply litMatchAt_of_getElem
    intro k hk
    obtain ⟨c', d', h1, h2, h3⟩ := litMatchAt_getElem hlm k hk
    exact ⟨c', d', h1, by rw [← hpos k hk]; exact h2, h3⟩
  · apply litMatchAt_of_getElem
    intro k hk
    obtain ⟨c', d', h1, h2, h3⟩ := litMatchAt_getElem hlm k hk
    exact ⟨c', d', h1, by rw [hpos k hk]; exact h2, h3⟩

theorem lit_bound_append {w l : List Char} {c : Char} {i : Nat} (hne : w ≠ [])
    (hw : ∀ a ∈ w, isWordChar a = true) (hc : isWordChar c = false)
    (hlm : litMatchAt true w ((l ++ [c]).drop i) = true) :
    i + w.length ≤ l.length := by
  have hlen1 : 1 ≤ w.length := by
    cases w with
    | nil => exact absurd rfl hne
    | cons a t => simp
  have hle : w.length ≤ ((l ++ [c]).drop i).length := litMatchAt_length_le hlm
  rw [List.length_drop, List.length_append, List.length_singleton] at hle
  by_contra hgt
  push_neg at hgt
  have heq : i + (w.length - 1) = l.length := by omega
  obtain ⟨c', d', h1, h2, h3⟩ := litMatchAt_getElem hlm (w.length - 1) (by omega)
  rw [List.getElem?_drop, heq, List.getElem?_append_right (le_refl _)] at h2
  simp at h2
  subst h2
  have hcc := isWordChar_of_charMatch h3
  rw [hw c' (List.getElem?_mem h1)] at hcc
  rw [hcc] at hc
  cases hc

theorem occursWholeWord_cons_nonword {w l : List Char} {c : Char} (hne : w ≠ [])
    (hw : ∀ a ∈ w, isWordChar a = true) (hc : isWordChar c = false) :
    occursWholeWord w (c :: l) = occursWholeWord w l := by
  apply bool_eq_of_iff
  rw [occursWholeWord_true_iff, occursWholeWord_true_iff]
  constructor
  · rintro ⟨i, hi, hlm, hp, hx⟩
    cases i with
    | zero =>
      exfalso
      have hhead := boundary_head_of_lit hne hw hlm
      rw [List.drop_zero] at hlm
      have h0 : idxIsWord (c :: l) 0 = true := by
        unfold idxIsWord
        rw [List.getElem?_cons_zero]
        obtain ⟨c', d', h1, h2, h3⟩ := litMatchAt_getElem hlm 0 (by
          cases w with
          | nil => exact absurd rfl hne
          | cons a t => simp)
        rw [List.getElem?_cons_zero] at h2
        injection h2 with h2
        subst h2
        show isWordChar c = true
        rw [isWordChar_of_charMatch h3]
        exact hw c' (List.getElem?_mem h1)
      rw [idxIsWord_cons_zero] at h0
      rw [h0] at hc
      cases hc
    | succ i' =>
      rw [List.drop_succ_cons] at hlm
      rw [List.length_cons] at hi
      refine ⟨i', by omega, hlm, ?_, ?_⟩
      · rw [prevIsWord_cons_succ c l i' hc] at hp
        exact hp
      · have harith : i' + 1 + w.length = (i' + w.length) + 1 := by omega
        rw [harith, idxIsWord_cons_succ] at hx
        exact hx
  · rintro ⟨i, hi, hlm, hp, hx⟩
    refine ⟨i + 1, by rw [List.length_cons]; omega, ?_, ?_, ?_⟩
    · rw [List.drop_succ_cons]
      exact hlm
    · rw [prevIsWord_cons_succ c l i hc]
      exact hp
    · have harith : i + 1 + w.length = (i + w.length) + 1 := by omega
      rw [harith, idxIsWord_cons_succ]
      exact hx

theorem occursWholeWord_concat_nonword {w l : List Char} {c : Char} (hne : w ≠ [])
    (hw : ∀ a ∈ w, isWordChar a = true) (hc : isWordChar c = false) :
    occursWholeWord w (l ++ [c]) = occursWholeWord w l := by
  apply bool_eq_of_iff
  rw [occursWholeWord_true_iff, occursWholeWord_true_iff]
  constructor
  · rintro ⟨i, hi, hlm, hp, hx⟩
    have hb : i + w.length ≤ l.length := lit_bound_append hne hw hc hlm
    refine ⟨i, by omega, ?_, ?_, ?_⟩
    · rw [← litMatchAt_append_iff true hb]
      exact hlm
    · cases i with
      | zero => rfl
      | succ k =>
        show idxIsWord l k = false
        have hk : k < l.length := by omega
        rw [← idxIsWord_append_lt (c := c) hk]
        exact hp
    · rcases Nat.lt_or_ge (i + w.length) l.length with hlt | hge
      · rw [← idxIsWord_append_lt (c := c) hlt]
        exact hx
      · exact idxIsWord_ge_length hge
  · rintro ⟨i, hi, hlm, hp, hx⟩
    have hb : i + w.length ≤ l.length := by
      have hle := litMatchAt_length_le hlm
      rw [List.length_drop] at hle
      omega
    refine ⟨i, by rw [List.length_append]; omega, ?_, ?_, ?_⟩
    · rw [litMatchAt_append_iff true hb]
      exact hlm
    · cases i with
      | zero => rfl
      | succ k =>
        show idxIsWord (l ++ [c]) k = false
        have hk : k < l.length := by omega
        rw [idxIsWord_append_lt hk]
        exact hp
    · rcases Nat.lt_or_ge (i + w.length) l.length with hlt | hge
      · rw [idxIsWord_append_lt hlt]
        exact hx
      · have heq : i + w.length = l.length := by omega
        rw [heq, idxIsWord_append_length]
        exact hc

theorem nonword_of_space {c : Char} (h : pyIsSpace c = true) : isWordChar c = false := by
  unfold pyIsSpace at h
  simp only [Bool.or_eq_true, beq_iff_eq] at h
  rcases h with ((((h | h) | h) | h) | h) | h
  · subst h; decide
  · subst h; decide
  · subst h; decide
  · subst h; decide
  · unfold isWordChar
    rw [h]
    decide
  · unfold isWordChar
    rw [h]
    decide

theorem occursWholeWord_dropWhile {w : List Char} (hne : w ≠ [])
    (hw : ∀ a ∈ w, isWordChar a = true) :
    ∀ l, occursWholeWord w (l.dropWhile pyIsSpace) = occursWholeWord w l := by
  intro l
  induction l with
  | nil => rfl
  | cons c t ih =>
    rw [List.dropWhile_cons]
    split
    · rename_i hcs
      rw [ih]
      exact (occursWholeWord_cons_nonword hne hw (nonword_of_space hcs)).symm
    · rfl

theorem occursWholeWord_dropTrail {w : List Char} (hne : w ≠ [])
    (hw : ∀ a ∈ w, isWordChar a = true) :
    ∀ l, occursWholeWord w (dropTrail pyIsSpace l) = occursWholeWord w l := by
  intro l
  induction l using List.reverseRecOn with
  | nil => rfl
  | append_singleton t a ih =>
    rw [dropTrail_concat]
    split
    · rename_i has
      rw [ih]
      exact (occursWholeWord_concat_nonword hne hw (nonword_of_space has)).symm
    · rfl

theorem occursWholeWord_pyStrip {w : List Char} (hne : w ≠ [])
    (hw : ∀ a ∈ w, isWordChar a = true) (l : List Char) :
    occursWholeWord w (pyStrip l) = occursWholeWord w l := by
  unfold pyStrip
  rw [occursWholeWord_dropTrail hne hw, occursWholeWord_dropWhile hne hw]

theorem words_find_all_eq (s : List Char) (words : List (List Char)) (h : words ≠ [])
    (hcw : ∀ w ∈ words, reCompilable w = true) :
    words_find_all s words =
      some (words.all (fun w => reSearch true (wordRegex w) s)) := by
  have hlen : words.length ≠ 0 := fun hc => h (List.length_eq_zero.1 hc)
  have hpos : (0 : ℚ) < (words.length : ℚ) := by
    exact_mod_cast Nat.pos_of_ne_zero hlen
  unfold words_find_all words_find
  rw [if_pos (List.all_eq_true.2 hcw), if_neg hlen, Option.map_some']
  set l : List ℚ :=
    words.map (fun w => if reSearch true (wordRegex w) s then (1 : ℚ) else 0) with hl
  have hind : ∀ x ∈ l, x = 0 ∨ x = 1 := by
    intro x hx
    rw [hl] at hx
    obtain ⟨w, _, rfl⟩ := List.mem_map.1 hx
    split <;> simp
  have hiff : (1 ≤ l.sum / (words.length : ℚ)) ↔
      (words.all (fun w => reSearch true (wordRegex w) s) = true) := by
    rw [one_le_div hpos]
    have hlenl : (words.length : ℚ) = (l.length : ℚ) := by rw [hl, List.length_map]
    rw [hlenl, indicator_sum_all l hind, List.all_eq_true]
    constructor
    · intro hall w hwmem
      have h1 := hall _ (List.mem_map_of_mem _ hwmem)
      by_contra hre
      rw [if_neg hre] at h1
      norm_num at h1
    · intro hall x hx
      rw [hl] at hx
      obtain ⟨w, hwmem, rfl⟩ := List.mem_map.1 hx
      rw [if_pos (hall w hwmem)]
  congr 1
  exact bool_eq_of_iff (by rw [decide_eq_true_eq]; exact hiff)

theorem foldl_count (words : List (List Char)) (hW : words ≠ [])
    (hcw : ∀ w ∈ words, reCompilable w = true) :
    ∀ (segs : List (List Char)) (a : Nat),
      segs.foldl (fun acc l => acc.bind (fun a =>
        (words_find_all (pyStrip l) words).map (fun b => a + (if b then 1 else 0))))
        (some a) =
      some (a + segs.countP
        (fun l => words.all (fun w => reSearch true (wordRegex w) (pyStrip l)))) := by
  intro segs
  induction segs with
  | nil => intro a; simp [List.countP_nil]
  | cons seg t ih =>
    intro a
    rw [List.foldl_cons]
    have hstep : (some a).bind (fun a =>
        (words_find_all (pyStrip seg) words).map (fun b => a + (if b then 1 else 0))) =
        some (a + (if words.all (fun w => reSearch true (wordRegex w) (pyStrip seg))
          then 1 else 0)) := by
      rw [words_find_all_eq _ _ hW hcw]
      rfl
    rw [hstep, ih]
    rw [List.countP_cons]
    congr 1
    omega

theorem sentence_find_eq (s : List Char) (words : List (List Char)) (hW : words ≠ [])
    (hcw : ∀ w ∈ words, reCompilable w = true) :
    sentence_find s words = some ((splitSentences s).countP
      (fun l => words.all (fun w => reSearch true (wordRegex w) (pyStrip l)))) := by
  unfold sentence_find
  rw [foldl_count words hW hcw (splitSentences s) 0]
  rw [Nat.zero_add]

theorem not_meta_of_word {a : Char} (h : isWordChar a = true) :
    isRegexMeta a = false := by
  by_contra hra
  rw [Bool.not_eq_false] at hra
  unfold isRegexMeta at hra
  rw [decide_eq_true_eq] at hra
  simp only [List.mem_cons, List.not_mem_nil, or_false] at hra
  rcases hra with rfl | rfl | rfl | rfl | rfl | rfl | rfl | rfl | rfl | rfl | rfl |
    rfl | rfl | rfl <;> exact absurd h (by decide)

theorem reCompilable_of_wordChars {w : List Char}
    (hw : ∀ a ∈ w, isWordChar a = true) : reCompilable w = true := by
  unfold reCompilable
  rw [List.all_eq_true]
  intro a ha
  rw [not_meta_of_word (hw a ha)]
  rfl

/-- C9 (amended): for a non-empty list of words made of word characters,
`sentence_find` counts exactly the segments of the split on the three
sentence-ending characters in which every word occurs as a
case-insensitive whole-word match (leading and trailing whitespace of a
segment does not affect this).  Words containing regex metacharacters
leave this scope: the dot of a word is matched as a wildcard rather
than literally (see the counterexample), and a word outside the
compilable fragment yields no count at all. -/
theorem c9_theorem (s : List Char) (words : List (List Char)) (hW : words ≠ [])
    (hwords : ∀ w ∈ words, w ≠ [] ∧ ∀ a ∈ w, isWordChar a = true) :
    sentence_find s words =
      some ((splitSentences s).countP
        (fun l => words.all (fun w => occursWholeWord w l))) := by
  rw [sentence_find_eq s words hW
    (fun w hwm => reCompilable_of_wordChars (hwords w hwm).2)]
  have hseg : ∀ l : List Char,
      (words.all (fun w => reSearch true (wordRegex w) (pyStrip l)))
        = (words.all (fun w => occursWholeWord w l)) := by
    intro l
    apply bool_eq_of_iff
    rw [List.all_eq_true, List.all_eq_true]
    constructor
    · intro hall w hw
      obtain ⟨h1, h2⟩ := hwords w hw
      have h3 := (reSearch_wordRegex_iff (pyStrip l) w h1 h2).1 (hall w hw)
      rw [occursWholeWord_pyStrip h1 h2] at h3
      exact h3
    · intro hall w hw
      obtain ⟨h1, h2⟩ := hwords w hw
      refine (reSearch_wordRegex_iff (pyStrip l) w h1 h2).2 ?_
      rw [occursWholeWord_pyStrip h1 h2]
      exact hall w hw
  have hfun : (fun l => words.all (fun w => reSearch true (wordRegex w) (pyStrip l)))
      = (fun l => words.all (fun w => occursWholeWord w l)) := funext hseg
  rw [hfun]

/-- C9 (counterexample): for the word `co.` the dot acts as a wildcard
in the compiled pattern `\bco.\b`: the code counts the segment `my cow`,
although `co.` does not occur in it as a literal case-insensitive whole
word (the literal count is 0). -/
theorem c9_counterexample :
    sentence_find ("my cow".toList) ["co.".toList] = some 1 ∧
      ((splitSentences ("my cow".toList)).countP
        (fun l => (["co.".toList]).all (fun w => occursWholeWord w l))) = 0 := by
  refine ⟨?_, by decide⟩
  rw [sentence_find_eq ("my cow".toList) ["co.".toList] (by simp) (by decide)]
  decide

/-- C9 (witness): the specification example, evaluating to 2. -/
theorem c9_witness :
    (("acme".toList ≠ []) ∧ ∀ a ∈ "acme".toList, isWordChar a = true) ∧
      sentence_find ("Acme is great. We sell widgets and acme parts.".toList)
        ["acme".toList] = some 2 := by
  refine ⟨⟨by decide, by decide⟩, ?_⟩
  have h := c9_theorem ("Acme is great. We sell widgets and acme parts.".toList)
    ["acme".toList] (by simp)
    (by
      intro w hw
      rw [List.mem_singleton] at hw
      subst hw
      exact ⟨by decide, by decide⟩)
  rw [h]
  decide

/-! ## Helper lemmas for the social-domain exclusion regex (claim C10) -/

theorem litMatchAt_false_self (w rest : List Char) :
    litMatchAt false w (w ++ rest) = true := by
  induction w with
  | nil => rfl
  | cons c t ih =>
    show (charMatch false c c && litMatchAt false t (t ++ rest)) = true
    rw [ih]
    unfold charMatch
    simp

theorem lit_complete {ci : Bool} {s : List Char} {fuel : Nat} {w : List Char} {i : Nat}
    (h : litMatchAt ci w (s.drop i) = true) :
    (i + w.length) ∈ matchEnds ci s fuel (lit w) i := by
  rw [matchEnds_lit, if_pos h]
  simp

theorem concat_complete {ci : Bool} {s : List Char} {fuel : Nat} {r1 r2 : Regex}
    {i k j : Nat} (h1 : k ∈ matchEnds ci s fuel r1 i)
    (h2 : j ∈ matchEnds ci s fuel r2 k) :
    j ∈ matchEnds ci s fuel (.concat r1 r2) i := by
  rw [matchEnds_concat, List.mem_flatMap]
  exact ⟨k, h1, h2⟩

theorem char_complete {ci : Bool} {s : List Char} {fuel : Nat} {c : Char} {i : Nat}
    {d : Char} (h : s[i]? = some d) (hm : charMatch ci c d = true) :
    (i + 1) ∈ matchEnds ci s fuel (.char c) i := by
  rw [matchEnds_char, h]
  show (i + 1) ∈ (if charMatch ci c d then [i + 1] else [])
  rw [if_pos hm]
  simp

theorem any_complete {ci : Bool} {s : List Char} {fuel : Nat} {i : Nat} {d : Char}
    (h : s[i]? = some d) (hd : d ≠ '\n') :
    (i + 1) ∈ matchEnds ci s fuel .anyCh i := by
  rw [matchEnds_any, h]
  show (i + 1) ∈ (if d = '\n' then [] else [i + 1])
  rw [if_neg hd]
  simp

theorem eol_complete {ci : Bool} {s : List Char} {fuel : Nat} :
    s.length ∈ matchEnds ci s fuel .eol s.length := by
  rw [matchEnds_eol, if_pos (Or.inl rfl)]
  simp

theorem star_any_complete {ci : Bool} {s : List Char} (hnl : '\n' ∉ s) :
    ∀ (fuel : Nat) (i j : Nat), i ≤ j → j ≤ s.length → j - i < fuel →
      j ∈ matchEnds ci s fuel (.star .anyCh) i := by
  intro fuel
  induction fuel with
  | zero => intro i j _ _ h3; omega
  | succ n ih =>
    intro i j h1 h2 h3
    rcases Nat.eq_or_lt_of_le h1 with rfl | hlt
    · exact self_mem_matchEnds_star ci s (n + 1) .anyCh i
    · rw [matchEnds_star_succ]
      refine List.mem_cons_of_mem _ ?_
      rw [List.mem_flatMap]
      refine ⟨i + 1, ?_, ih (i + 1) j hlt h2 (by omega)⟩
      rw [List.mem_filter]
      constructor
      · have hi : i < s.length := by omega
        cases hsi : s[i]? with
        | none =>
          rw [List.getElem?_eq_none_iff] at hsi
          omega
        | some d =>
          have hd : d ≠ '\n' := fun hdd => hnl (hdd ▸ List.getElem?_mem hsi)
          exact any_complete hsi hd
      · simp

theorem altJoin_complete {ci : Bool} {s : List Char} {fuel : Nat} {i j : Nat} :
    ∀ (r : Regex) (rs : List Regex),
      (j ∈ matchEnds ci s fuel r i ∨ ∃ x ∈ rs, j ∈ matchEnds ci s fuel x i) →
      j ∈ matchEnds ci s fuel (altJoin r rs) i := by
  intro r rs
  induction rs generalizing r with
  | nil =>
    rintro (h | h)
    · exact h
    · obtain ⟨x, hx, _⟩ := h
      simp at hx
  | cons x xs ih =>
    rintro (h | h)
    · refine ih (.alt r x) (Or.inl ?_)
      rw [matchEnds_alt]
      exact List.mem_append_left _ h
    · obtain ⟨y, hy, hj⟩ := h
      rcases List.mem_cons.1 hy with rfl | hy'
      · refine ih (.alt r y) (Or.inl ?_)
        rw [matchEnds_alt]
        exact List.mem_append_right _ hj
      · exact ih (.alt r x) (Or.inr ⟨y, hy', hj⟩)

theorem excludeDomRegex_complete (tok u a b c : List Char)
    (hnl : '\n' ∉ u) (hlen2 : 2 ≤ c.length)
    (hdecomp : u = "http".toList ++ (a ++ ("://".toList ++ (b ++ (tok ++ ('.' :: c)))))) :
    u.length ∈ matchEnds false u (u.length + 1) (excludeDomRegex tok) 0 := by
  set H := "http".toList with hH
  set S := "://".toList with hS
  set fuel := u.length + 1 with hfuel
  -- re-associations of the decomposition
  have e1 : u = H ++ (a ++ (S ++ (b ++ (tok ++ ('.' :: c))))) := hdecomp
  have e2 : u = (H ++ a) ++ (S ++ (b ++ (tok ++ ('.' :: c)))) := by
    rw [e1]; simp [List.append_assoc]
  have e3 : u = ((H ++ a) ++ S) ++ (b ++ (tok ++ ('.' :: c))) := by
    rw [e2]; simp [List.append_assoc]
  have e4 : u = (((H ++ a) ++ S) ++ b) ++ (tok ++ ('.' :: c)) := by
    rw [e3]; simp [List.append_assoc]
  have e5 : u = ((((H ++ a) ++ S) ++ b) ++ tok) ++ ('.' :: c) := by
    rw [e4]; simp [List.append_assoc]
  have key : ∀ (X Y : List Char), u = X ++ Y → u.drop X.length = Y := by
    intro X Y h
    rw [h, List.drop_left]
  -- total length
  have hlen : u.length =
      H.length + a.length + S.length + b.length + tok.length + 1 + c.length := by
    rw [e1]
    simp [List.length_append]
    omega
  -- positions
  set p1 := H.length with hp1
  set p2 := H.length + a.length with hp2
  set p3 := p2 + S.length with hp3
  set p4 := p3 + b.length with hp4
  set p5 := p4 + tok.length with hp5
  set p6 := p5 + 1 with hp6
  -- the drops at those positions
  have d0 : u.drop 0 = H ++ (a ++ (S ++ (b ++ (tok ++ ('.' :: c))))) := by
    rw [List.drop_zero]; exact e1
  have d2 : u.drop p2 = S ++ (b ++ (tok ++ ('.' :: c))) := by
    have h := key (H ++ a) _ e2
    rwa [List.length_append] at h
  have d3 : u.drop p3 = b ++ (tok ++ ('.' :: c)) := by
    have h := key ((H ++ a) ++ S) _ e3
    rwa [List.length_append, List.length_append] at h
  have d4 : u.drop p4 = tok ++ ('.' :: c) := by
    have h := key (((H ++ a) ++ S) ++ b) _ e4
    rwa [List.length_append, List.length_append, List.length_append] at h
  have d5 : u.drop p5 = '.' :: c := by
    have h := key ((((H ++ a) ++ S) ++ b) ++ tok) _ e5
    rwa [List.length_append, List.length_append, List.length_append,
      List.length_append] at h
  -- step 1: the literal http
  have m1 : p1 ∈ matchEnds false u fuel (lit H) 0 := by
    have h := @lit_complete false u fuel H 0
      (by rw [d0]; exact litMatchAt_false_self H _)
    rwa [Nat.zero_add] at h
  -- step 2: .* up to the start of ://
  have m2 : p2 ∈ matchEnds false u fuel (.star .anyCh) p1 := by
    apply star_any_complete hnl
    · omega
    · omega
    · omega
  -- step 3: the literal ://
  have m3 : p3 ∈ matchEnds false u fuel (lit S) p2 := by
    have h := @lit_complete false u fuel S p2
      (by rw [d2]; exact litMatchAt_false_self S _)
    exact h
  -- step 4: .* up to the domain token
  have m4 : p4 ∈ matchEnds false u fuel (.star .anyCh) p3 := by
    apply star_any_complete hnl
    · omega
    · omega
    · omega
  -- step 5: the token
  have m5 : p5 ∈ matchEnds false u fuel (lit tok) p4 := by
    have h := @lit_complete false u fuel tok p4
      (by rw [d4]; exact litMatchAt_false_self tok _)
    exact h
  -- step 6: the literal dot
  have hgd : ∀ k : Nat, u[p5 + k]? = ('.' :: c)[k]? := by
    intro k
    rw [← List.getElem?_drop, d5]
  have m6 : p6 ∈ matchEnds false u fuel (.char '.') p5 := by
    have h0 : u[p5 + 0]? = some '.' := by rw [hgd 0]; exact List.getElem?_cons_zero
    rw [Nat.add_zero] at h0
    exact char_complete h0 (by unfold charMatch; simp)
  -- step 7: the two wildcard characters of .{2,}
  obtain ⟨c0, c1, c', hc⟩ : ∃ c0 c1 c', c = c0 :: c1 :: c' := by
    cases c with
    | nil => simp at hlen2
    | cons x t =>
      cases t with
      | nil => simp at hlen2
      | cons y t' => exact ⟨x, y, t', rfl⟩
  have h1 : u[p6]? = some c0 := by
    have := hgd 1
    rw [hc] at this
    exact this
  have h2 : u[p6 + 1]? = some c1 := by
    have h := hgd 2
    rw [hc] at h
    have harith : p5 + 2 = p6 + 1 := by omega
    rw [harith] at h
    rw [h]
    simp
  have m7 : (p6 + 1) ∈ matchEnds false u fuel .anyCh p6 :=
    any_complete h1 (fun hdd => hnl (hdd ▸ List.getElem?_mem h1))
  have m8 : (p6 + 2) ∈ matchEnds false u fuel .anyCh (p6 + 1) := by
    have h := @any_complete false u fuel (p6 + 1) c1 h2
      (fun hdd => hnl (hdd ▸ List.getElem?_mem h2))
    have harith : p6 + 1 + 1 = p6 + 2 := by omega
    rwa [harith] at h
  -- step 8: the trailing stars and the end anchor
  have hc'len : c.length = c'.length + 2 := by rw [hc]; simp
  have m9 : u.length ∈ matchEnds false u fuel (.star .anyCh) (p6 + 2) := by
    apply star_any_complete hnl
    · omega
    · omega
    · omega
  have m10 : u.length ∈ matchEnds false u fuel (.star (.char '/')) u.length :=
    self_mem_matchEnds_star false u fuel _ u.length
  have m11 : u.length ∈ matchEnds false u fuel (.star .anyCh) u.length :=
    self_mem_matchEnds_star false u fuel _ u.length
  have m12 : u.length ∈ matchEnds false u fuel .eol u.length := eol_complete
  -- assemble the concatenation
  unfold excludeDomRegex
  rw [← hH, ← hS]
  exact concat_complete m1 (concat_complete m2 (concat_complete m3
    (concat_complete m4 (concat_complete m5 (concat_complete m6
      (concat_complete m7 (concat_complete m8 (concat_complete m9
        (concat_complete m10 (concat_complete m11 m12))))))))))

theorem excludeRe_of_dom {u tok : List Char} (htok : tok ∈ exclude_dom)
    (hm : u.length ∈ matchEnds false u (u.length + 1) (excludeDomRegex tok) 0) :
    excludeRe u = true := by
  unfold excludeRe reMatch
  have hcompiled : excludeReCompiled =
      altJoin (excludeDomRegex ("linkedin".toList))
        (["glassdoor".toList, "facebook".toList, "societe".toList, "wikipedia".toList,
          "google".toList, "youtube".toList].map excludeDomRegex) := rfl
  have hmem : u.length ∈ matchEnds false u (u.length + 1) excludeReCompiled 0 := by
    rw [hcompiled]
    apply altJoin_complete
    unfold exclude_dom at htok
    rcases List.mem_cons.1 htok with rfl | htok'
    · exact Or.inl hm
    · exact Or.inr ⟨excludeDomRegex tok, List.mem_map_of_mem _ htok', hm⟩
  cases hme : matchEnds false u (u.length + 1) excludeReCompiled 0 with
  | nil => rw [hme] at hmem; simp at hmem
  | cons x t => rfl

/-- C10: with `skip_social` enabled, any candidate whose URL has the
shape `http…://…TOK.xy…` — the blocked domain token occurring anywhere
after the scheme, immediately followed by a dot and at least two further
characters — is assigned weight `-1` by the pre-check, for every rule
table, attribute mapping and fetch oracle. -/
theorem c10_theorem {Pg : Type} (f : UrlFinder Pg) (fetch : List Char → Option Pg)
    (params : List Char → Option (List Char)) (r : Candidate) (tok a b c : List Char)
    (htok : tok ∈ exclude_dom) (hskip : f.skip_social = true)
    (hnl : '\n' ∉ r.link) (hlen2 : 2 ≤ c.length)
    (hdecomp : r.link =
      "http".toList ++ (a ++ ("://".toList ++ (b ++ (tok ++ ('.' :: c)))))) :
    candidateWeight f fetch params r = -1 := by
  have hre : excludeRe r.link = true :=
    excludeRe_of_dom htok (excludeDomRegex_complete tok r.link a b c hnl hlen2 hdecomp)
  unfold candidateWeight
  rw [hre, hskip]
  simp

/-- C10 (witness): `https://example.com/wikipedia.html` is excluded even
though its host is `example.com`. -/
theorem c10_witness :
    ("wikipedia".toList ∈ exclude_dom) ∧
      ('\n' ∉ ("https://example.com/wikipedia.html".toList)) ∧
      ("https://example.com/wikipedia.html".toList =
        "http".toList ++ ("s".toList ++ ("://".toList ++ ("example.com/".toList ++
          ("wikipedia".toList ++ ('.' :: "html".toList)))))) ∧
      @candidateWeight Unit ⟨[], 1, true, false, 0⟩ (fun _ => some ())
        (fun _ => none)
        ⟨"https://example.com/wikipedia.html".toList, [], []⟩ = -1 := by
  refine ⟨by decide, by decide, by decide, ?_⟩
  exact @c10_theorem Unit ⟨[], 1, true, false, 0⟩ (fun _ => some ())
    (fun _ => none) ⟨"https://example.com/wikipedia.html".toList, [], []⟩
    ("wikipedia".toList) ("s".toList) ("example.com/".toList) ("html".toList)
    (by decide) rfl (by decide) (by decide) (by decide)

end Crawler
